import Mathlib

/-!
# Verification of the corpus consistency checker (`generator/sanitizer.py`)

This file gives a shallow embedding of the analysis phase of
`run_sanitizer` together with the three pinyin/Chinese normalization
helpers `strip_tones`, `normalize_pinyin_full` and
`normalize_pinyin_stripped`, and proves / refutes the specification
claims about them.

## Modelling choices

* Python's `unicodedata` is modelled over the character repertoire the
  corpus uses: ASCII, the precomposed toned pinyin vowels, the combining
  diacritics U+0300–U+036F, and the CJK Unified Ideographs block
  U+4E00–U+9FFF.  `unicodedata.category(c).startswith('L')` becomes
  `isLetterChar`, `category(c) == 'Mn'` becomes `isMnChar`, and
  `unicodedata.normalize('NFD', s)` becomes `nfdChar` mapped over the
  string, driven by an explicit decomposition table (`pinyinNFD`).
  `str.lower()` becomes `toLowerChar` mapped over the string (on this
  repertoire Python's `lower` is exactly the ASCII table `asciiLower`;
  the precomposed vowels in `pinyinNFD` are already lowercase).
* A YAML record becomes `Entry`; a chunk becomes `Chunk`.  A field that
  may be absent (`entry.get`/`chunk.get` with a default, or the
  `'chunks' not in entry` test) is an `Option`.
* Python `dict`s preserve insertion order; `defaultdict(list)` grouping
  is embedded as: the list of keys in first-occurrence order
  (`firstKeys`), each paired with the sublist of values carrying that
  key, which is extensionally the same association.
* The Python code stores record *indices* and immediately dereferences
  the immutable loaded list (`data[idx]`); the embedding stores the
  records themselves, which is observationally identical (no index
  value ever reaches the output).
* `sorted` on strings compares Unicode code points lexicographically;
  `sortStrings` is an insertion sort over exactly that order
  (`listCharLt`).  All keys being sorted are duplicate-free, so
  stability questions do not arise.
-/

/-- Code point of a character, as a natural number. -/
def charVal (c : Char) : Nat := c.toNat

/-- NFD decomposition table for the precomposed toned pinyin vowels
(the `unicodedata.normalize('NFD', ·)` behaviour on this repertoire).
Each entry maps a precomposed character to its full canonical
decomposition: base vowel followed by combining mark(s). -/
def pinyinNFD : List (Char × List Char) :=
  [ ('ā', ['a', '̄']), ('á', ['a', '́']), ('ǎ', ['a', '̌']), ('à', ['a', '̀'])
  , ('ē', ['e', '̄']), ('é', ['e', '́']), ('ě', ['e', '̌']), ('è', ['e', '̀'])
  , ('ī', ['i', '̄']), ('í', ['i', '́']), ('ǐ', ['i', '̌']), ('ì', ['i', '̀'])
  , ('ō', ['o', '̄']), ('ó', ['o', '́']), ('ǒ', ['o', '̌']), ('ò', ['o', '̀'])
  , ('ū', ['u', '̄']), ('ú', ['u', '́']), ('ǔ', ['u', '̌']), ('ù', ['u', '̀'])
  , ('ü', ['u', '̈'])
  , ('ǖ', ['u', '̈', '̄']), ('ǘ', ['u', '̈', '́'])
  , ('ǚ', ['u', '̈', '̌']), ('ǜ', ['u', '̈', '̀']) ]

/-- ASCII lowercasing table (`str.lower()` on the ASCII letters). -/
def asciiLower : List (Char × Char) :=
  [ ('A','a'), ('B','b'), ('C','c'), ('D','d'), ('E','e'), ('F','f'), ('G','g')
  , ('H','h'), ('I','i'), ('J','j'), ('K','k'), ('L','l'), ('M','m'), ('N','n')
  , ('O','o'), ('P','p'), ('Q','q'), ('R','r'), ('S','s'), ('T','t'), ('U','u')
  , ('V','v'), ('W','w'), ('X','x'), ('Y','y'), ('Z','z') ]

/-- `unicodedata.normalize('NFD', ·)`, per character. -/
def nfdChar (c : Char) : List Char :=
  match pinyinNFD.lookup c with
  | some d => d
  | none => [c]

/-- `unicodedata.category(c) == 'Mn'` on this repertoire: the combining
diacritical marks block. -/
def isMnChar (c : Char) : Bool := decide (0x300 ≤ charVal c ∧ charVal c ≤ 0x36F)

/-- `unicodedata.category(c).startswith('L')` on this repertoire: ASCII
letters, the precomposed pinyin vowels (category Ll), and the CJK
Unified Ideographs (category Lo). -/
def isLetterChar (c : Char) : Bool :=
  c.isAlpha || (pinyinNFD.map Prod.fst).contains c
    || decide (0x4E00 ≤ charVal c ∧ charVal c ≤ 0x9FFF)

/-- `str.lower()`, per character. -/
def toLowerChar (c : Char) : Char := (asciiLower.lookup c).getD c

/-- Does the string contain at least one letter-category character?
(`any(unicodedata.category(c).startswith('L') for c in s)`). -/
def hasLetterStr (s : String) : Bool := s.data.any isLetterChar

/-- NFD decomposition of a character list. -/
def nfdList (l : List Char) : List Char := l.flatMap nfdChar

/-- `strip_tones` on the character list: NFD-decompose, drop the
combining marks (category Mn), lowercase. -/
def stripTonesL (l : List Char) : List Char :=
  ((nfdList l).filter (fun c => !(isMnChar c))).map toLowerChar

/-- `normalize_pinyin_full` on the character list: keep only
letter-category characters, lowercase. -/
def fullL (l : List Char) : List Char :=
  (l.filter isLetterChar).map toLowerChar

/-- `normalize_pinyin_stripped` on the character list: strip the tones,
then keep only letter-category characters and lowercase. -/
def strippedL (l : List Char) : List Char :=
  ((stripTonesL l).filter isLetterChar).map toLowerChar

/-- `strip_tones(s)` from `sanitizer.py`. -/
def strip_tones (s : String) : String := ⟨stripTonesL s.data⟩

/-- `normalize_pinyin_full(pinyin)` from `sanitizer.py`. -/
def normalize_pinyin_full (s : String) : String := ⟨fullL s.data⟩

/-- `normalize_pinyin_stripped(pinyin)` from `sanitizer.py`. -/
def normalize_pinyin_stripped (s : String) : String := ⟨strippedL s.data⟩

/-- Strict lexicographic comparison of character lists by code point:
Python's `<` on strings. -/
def listCharLt : List Char → List Char → Bool
  | [], [] => false
  | [], _ :: _ => true
  | _ :: _, [] => false
  | a :: as, b :: bs =>
    if charVal a < charVal b then true
    else if charVal b < charVal a then false
    else listCharLt as bs

/-- Non-strict string comparison used for sorting (`a ≤ b` as Python's
`sorted` orders strings). -/
def strLeB (a b : String) : Bool := !(listCharLt b.data a.data)

/-- Insert a string into a (sorted) list of strings. -/
def insertSorted (a : String) : List String → List String
  | [] => [a]
  | b :: bs => if strLeB a b then a :: b :: bs else b :: insertSorted a bs

/-- Ascending sort of strings by code-point order (Python's `sorted`).
The lists this is applied to are duplicate-free, so this agrees with
any stable sort. -/
def sortStrings : List String → List String
  | [] => []
  | a :: as => insertSorted a (sortStrings as)

/-- Keys of a list in first-occurrence order with `seen` already
emitted: the key order of a Python `dict` built by insertion. -/
def firstKeysAux {α : Type} [DecidableEq α] (seen : List α) : List α → List α
  | [] => []
  | a :: rest =>
    if a ∈ seen then firstKeysAux seen rest
    else a :: firstKeysAux (a :: seen) rest

/-- The distinct elements of a list, in first-occurrence order: the key
order of a Python `dict` built by inserting the list in order. -/
def firstKeys {α : Type} [DecidableEq α] (l : List α) : List α := firstKeysAux [] l

/-! ## Data model and the sanitizer's analysis phase -/

/-- One chunk record of a sentence (`{chinese, pinyin}` mapping; either
field may be absent, read with `chunk.get(field, '')`). -/
structure Chunk where
  chinese : Option String
  pinyin : Option String
deriving DecidableEq

/-- One sentence record (`{english, chunks}` mapping; `english` is read
with `entry.get('english', …)`, and a record may lack `chunks`
altogether). -/
structure Entry where
  english : Option String
  chunks : Option (List Chunk)
deriving DecidableEq

/-- `"".join(chunk.get('chinese', '') for chunk in entry['chunks'])`:
concatenation, in order and with no separator, of every chunk's Chinese
text. -/
def fullChinese : List Chunk → String
  | [] => ""
  | c :: cs => c.chinese.getD "" ++ fullChinese cs

/-- The duplicate-pass key/value pair an entry contributes to
`chinese_groups`, or `none` when the record lacks `chunks` and is
skipped (`if 'chunks' not in entry: continue`). -/
def dupPair (e : Entry) : Option (String × Entry) :=
  e.chunks.map (fun cs => (fullChinese cs, e))

/-- All `(full_chinese, record)` pairs, in corpus order. -/
def dupPairs (data : List Entry) : List (String × Entry) := data.filterMap dupPair

/-- `chinese_groups`: records grouped by concatenated Chinese text, keys
in first-occurrence order (a `defaultdict(list)` filled in corpus
order). -/
def chineseGroups (data : List Entry) : List (String × List Entry) :=
  (firstKeys ((dupPairs data).map Prod.fst)).map
    (fun k => (k, ((dupPairs data).filter (fun p => p.1 = k)).map Prod.snd))

/-- `normalize_pinyin_full(" ".join(c.get('pinyin', '') for c in
data[idx]['chunks']))`: the sentence-level pinyin key used inside a
duplicate group.  (Members of a group always have `chunks`; `getD []`
only supplies the unused default.) -/
def sentKey (e : Entry) : String :=
  normalize_pinyin_full
    (String.intercalate " " ((e.chunks.getD []).map (fun c => c.pinyin.getD "")))

/-- `' '.join(c.get('pinyin', '') for c in data[indices[0]]['chunks'])`:
the raw joined pinyin printed for a duplicate group. -/
def rawSentPinyin (e : Entry) : String :=
  String.intercalate " " ((e.chunks.getD []).map (fun c => c.pinyin.getD ""))

/-- The duplicate groups the code counts and (up to the cap) prints: a
Chinese-text group qualifies when it has at least two records and all
of them share one normalized sentence pinyin key
(`len(indices) > 1` and `len(pinyin_map) == 1`). -/
def dupGroups (data : List Entry) : List (String × List Entry) :=
  (chineseGroups data).filter
    (fun g => decide (1 < g.2.length) && decide ((firstKeys (g.2.map sentKey)).length = 1))

/-- One printed `[DUPLICATE SENTENCE]` block: the Chinese text, the raw
joined pinyin of the group's first record, and every member's english
(`entry.get('english', '???')`). -/
structure DupLine where
  chinese : String
  pinyin : String
  english : List String
deriving DecidableEq

/-- Render one duplicate group as printed. -/
def renderDup (g : String × List Entry) : DupLine :=
  ⟨g.1, rawSentPinyin ((g.2.headD ⟨none, none⟩)),
    g.2.map (fun e => e.english.getD "???")⟩

/-- The closing line of the duplicate section: `... and n more duplicate
sentences.` / `No duplicate sentences found.` / `Found n duplicate
sentences.`. -/
inductive DupSummary where
  | moreThanTen (extra : Nat)
  | noneFound
  | found (n : Nat)
deriving DecidableEq

/-- Choose the summary line from the number of duplicate groups. -/
def dupSummaryOf (n : Nat) : DupSummary :=
  if 10 < n then .moreThanTen (n - 10)
  else if n = 0 then .noneFound
  else .found n

/-- One occurrence recorded in `word_map`: the chunk's Chinese text, the
full-letters normalization of its pinyin, and the record it came from
(the code stores the record's index and dereferences the immutable
`data`; the record itself is stored here). -/
structure Occ where
  ch : String
  full : String
  entry : Entry
deriving DecidableEq

/-- The `word_map` occurrence a chunk contributes, if any: skipped when
its Chinese text has no letter-category character or its normalized
pinyin is empty. -/
def occOfChunk (e : Entry) (c : Chunk) : Option Occ :=
  let ch := c.chinese.getD ""
  let pf := normalize_pinyin_full (c.pinyin.getD "")
  if hasLetterStr ch && decide (pf ≠ "") then some ⟨ch, pf, e⟩ else none

/-- All `word_map` occurrences one record contributes. -/
def entryOccs (e : Entry) : List Occ := (e.chunks.getD []).filterMap (occOfChunk e)

/-- All `word_map` occurrences of the corpus, in corpus order. -/
def occs (data : List Entry) : List Occ := data.flatMap entryOccs

/-- The raw pinyin of the first chunk of `e` with Chinese text `ch` and
full-letters pinyin normalization `f`, if any (`chunk.get('chinese') ==
ch and normalize_pinyin_full(chunk.get('pinyin', '')) == fp`). -/
def entryFirstSample (e : Entry) (ch f : String) : Option String :=
  ((e.chunks.getD []).find?
      (fun c => decide (c.chinese = some ch)
        && decide (normalize_pinyin_full (c.pinyin.getD "") = f))).map
    (fun c => c.pinyin.getD "")

/-- The `sample_raw` search: scan the occurrence records in order; a
record with a matching chunk overwrites the accumulator with that
chunk's raw pinyin; stop at the first non-empty value
(`if sample_raw: break`). -/
def findSampleGo (ch f : String) (acc : String) : List Entry → String
  | [] => acc
  | e :: es =>
    let acc' := (entryFirstSample e ch f).getD acc
    if acc' ≠ "" then acc' else findSampleGo ch f acc' es

/-- `sample_raw` for a tone-report line, starting from the empty
string. -/
def findSample (ch f : String) (entries : List Entry) : String :=
  findSampleGo ch f "" entries

/-- One printed line of a tone-inconsistency group:
`- {sample_raw} (in {len(indices)} sentences, e.g. '{english}')`. -/
structure ToneLine where
  sample : String
  count : Nat
  exampleEnglish : Option String
deriving DecidableEq

/-- One printed tone-inconsistency group: `Chinese: {ch}` followed by
its lines. -/
structure ToneGroup where
  chinese : String
  lines : List ToneLine
deriving DecidableEq

/-- Render the tone line for one full-letters pinyin normalization `fp`
of the group `grp` of occurrences of Chinese text `k`. -/
def renderToneLine (k : String) (grp : List Occ) (fp : String) : ToneLine :=
  let entries := (grp.filter (fun o => decide (o.full = fp))).map Occ.entry
  ⟨findSample k fp entries, entries.length, entries.head?.bind Entry.english⟩

/-- The tone-inconsistency groups printed for one `word_map` key `k`
(with `grp` its occurrences): nothing unless the key has at least two
distinct full-letters normalizations; then one group per stripped key
shared by more than one full normalization, its lines in sorted order
of the full normalization. -/
def processKey (allOccs : List Occ) (k : String) : List ToneGroup :=
  let grp := allOccs.filter (fun o => decide (o.ch = k))
  let fulls := firstKeys (grp.map Occ.full)
  if fulls.length ≤ 1 then []
  else
    (firstKeys (fulls.map normalize_pinyin_stripped)).flatMap
      (fun s =>
        let fps := fulls.filter (fun f => decide (normalize_pinyin_stripped f = s))
        if 1 < fps.length then [⟨k, (sortStrings fps).map (renderToneLine k grp)⟩]
        else [])

/-- The whole tone-inconsistency section: `word_map` keys visited in
sorted order (`sorted(word_map.items())`). -/
def toneSection (data : List Entry) : List ToneGroup :=
  (sortStrings (firstKeys ((occs data).map Occ.ch))).flatMap (processKey (occs data))

/-- The full analysis report: the printed duplicate groups (first ten),
the duplicate summary line, and the tone-inconsistency groups. -/
structure Report where
  dupPrinted : List DupLine
  dupSummary : DupSummary
  toneGroups : List ToneGroup
deriving DecidableEq

/-- The analysis phase of `run_sanitizer`, applied to the loaded
record list. -/
def sanitize (data : List Entry) : Report :=
  ⟨((dupGroups data).take 10).map renderDup,
    dupSummaryOf (dupGroups data).length,
    toneSection data⟩

/-- The outcome of `run_sanitizer` after a successful parse: an empty
document is reported as such (`if not data: print("Empty file.")`),
otherwise the analysis runs. -/
inductive SanitizerOutput where
  | emptyInput
  | report (r : Report)
deriving DecidableEq

/-- `run_sanitizer` on a successfully parsed document. -/
def run_sanitizer (data : List Entry) : SanitizerOutput :=
  if data = [] then .emptyInput else .report (sanitize data)

/-! ## Claim-side quantities

These definitions restate, directly over the corpus, the quantities the
specification's claims speak about (occurrences of a chunk text, its raw
pinyin variants, its full-letters normalizations); they are *not* part
of the embedded program and are compared against it. -/

/-- Every chunk occurrence in the corpus whose Chinese text (defaulted
to `""`) equals `ch`, in corpus order. -/
def chunkOccurrencesOf (data : List Entry) (ch : String) : List Chunk :=
  data.flatMap (fun e => (e.chunks.getD []).filter (fun c => decide (c.chinese.getD "" = ch)))

/-- The full-letters pinyin normalizations of the occurrences of `ch`,
with multiplicity. -/
def claimFulls (data : List Entry) (ch : String) : List String :=
  (chunkOccurrencesOf data ch).map (fun c => normalize_pinyin_full (c.pinyin.getD ""))

/-- The raw pinyin variants of the occurrences of `ch`, with
multiplicity. -/
def rawVariants (data : List Entry) (ch : String) : List String :=
  (chunkOccurrencesOf data ch).map (fun c => c.pinyin.getD "")

/-- The concatenated Chinese text of a record. -/
def fullChineseOf (e : Entry) : String := fullChinese (e.chunks.getD [])

/-- The first chunk occurrence in corpus order (records in order, chunks
within a record in order) whose Chinese text is `ch` and whose pinyin
normalizes to the full-letters key `f`, together with its record. -/
def firstOcc (data : List Entry) (ch f : String) : Option (Entry × Chunk) :=
  data.findSome? (fun e =>
    ((e.chunks.getD []).find? (fun c => decide (c.chinese.getD "" = ch)
      && decide (normalize_pinyin_full (c.pinyin.getD "") = f))).map (fun c => (e, c)))

/-- Two records are "reported as duplicates" when they appear together
in a reported duplicate group. -/
def pairReported (data : List Entry) (e1 e2 : Entry) : Prop :=
  ∃ g ∈ dupGroups data, e1 ∈ g.2 ∧ e2 ∈ g.2

/-- Two records that agree on everything the tone report reads from a
record: the english field, and the first matching sample chunk for
every non-empty full key. -/
def EntryR (e1 e2 : Entry) : Prop :=
  e1.english = e2.english ∧
    ∀ ch f, f ≠ "" → entryFirstSample e1 ch f = entryFirstSample e2 ch f

/-- The relation on `word_map` occurrences preserved by inserting a
chunk that contributes no occurrence: same Chinese text, same full
normalization, and report-equivalent source records. -/
def OccR (o1 o2 : Occ) : Prop :=
  o1.ch = o2.ch ∧ o1.full = o2.full ∧ EntryR o1.entry o2.entry

/-! ### Concrete corpora used as witnesses and counterexamples -/

/-- Record `a`: `你好` read `nǐ hǎo`. -/
def entA : Entry := ⟨some "a", some [⟨some "你好", some "nǐ hǎo"⟩]⟩

/-- Record `b`: `你好` read `nǐ hǎo`. -/
def entB : Entry := ⟨some "b", some [⟨some "你好", some "nǐ hǎo"⟩]⟩

/-- Record `c`: `你好` with the distinct reading `hǎo nǐ`. -/
def entC : Entry := ⟨some "c", some [⟨some "你好", some "hǎo nǐ"⟩]⟩

/-- Sentence `s1`: `你` read `Nǐ`. -/
def entT1 : Entry := ⟨some "s1", some [⟨some "你", some "Nǐ"⟩]⟩

/-- Sentence `s2`: `你` read `nǐ`. -/
def entT2 : Entry := ⟨some "s2", some [⟨some "你", some "nǐ"⟩]⟩

/-- Sentence `s3`: `你` read `ní`. -/
def entT3 : Entry := ⟨some "s3", some [⟨some "你", some "ní"⟩]⟩

/-- A record with one `k`-chunk, used to build many duplicate groups. -/
def entDup (k : String) : Entry := ⟨none, some [⟨some k, some "x"⟩]⟩

/-- A corpus with exactly fifteen duplicate groups. -/
def dataFifteen : List Entry :=
  ["a", "b", "c", "d", "e", "f", "g", "h", "i", "j", "k", "l", "m", "n", "o"].flatMap
    (fun k => [entDup k, entDup k])

/-- A chunk with letter-bearing Chinese text but pinyin without any
letter (its full-letters normalization is empty). -/
def chunkNoPinyinLetters : Chunk := ⟨some "他", some "123"⟩

/-! ## Generic list lemmas -/

theorem charVal_inj {a b : Char} (h : charVal a = charVal b) : a = b := by
  apply Char.eq_of_val_eq
  apply UInt32.eq_of_toBitVec_eq
  exact BitVec.eq_of_toNat_eq h

theorem lookup_mem {α β : Type} [DecidableEq α] {l : List (α × β)} {k : α} {v : β}
    (h : l.lookup k = some v) : (k, v) ∈ l := by
  induction l with
  | nil => simp [List.lookup] at h
  | cons p rest ih =>
    obtain ⟨a, b⟩ := p
    rw [List.lookup] at h
    by_cases hk : k = a
    · have hb : (k == a) = true := beq_iff_eq.mpr hk
      simp only [hb] at h
      cases h
      subst hk
      exact List.mem_cons_self _ _
    · have hb : (k == a) = false := beq_eq_false_iff_ne.mpr hk
      simp only [hb] at h
      exact List.mem_cons_of_mem _ (ih h)

theorem lookup_eq_none {α β : Type} [DecidableEq α] {l : List (α × β)} {k : α}
    (h : k ∉ l.map Prod.fst) : l.lookup k = none := by
  induction l with
  | nil => rfl
  | cons p rest ih =>
    obtain ⟨a, b⟩ := p
    simp only [List.map_cons, List.mem_cons, not_or] at h
    have hb : (k == a) = false := beq_eq_false_iff_ne.mpr h.1
    rw [List.lookup]
    simp only [hb]
    exact ih h.2

theorem mem_keys_of_lookup {α β : Type} [DecidableEq α] {l : List (α × β)} {k : α} {v : β}
    (h : l.lookup k = some v) : k ∈ l.map Prod.fst := by
  by_contra hk
  rw [lookup_eq_none hk] at h
  cases h

theorem mem_firstKeysAux {α : Type} [DecidableEq α] {a : α} (seen : List α) (l : List α) :
    a ∈ firstKeysAux seen l ↔ a ∈ l ∧ a ∉ seen := by
  induction l generalizing seen with
  | nil => simp [firstKeysAux]
  | cons b rest ih =>
    rw [firstKeysAux]
    by_cases hb : b ∈ seen
    · rw [if_pos hb, ih]
      simp only [List.mem_cons]
      constructor
      · exact fun h => ⟨Or.inr h.1, h.2⟩
      · rintro ⟨h1 | h1, h2⟩
        · exact absurd (h1 ▸ hb) h2
        · exact ⟨h1, h2⟩
    · rw [if_neg hb]
      simp only [List.mem_cons, ih, List.mem_cons, not_or]
      constructor
      · rintro (rfl | ⟨h1, h2, h3⟩)
        · exact ⟨Or.inl rfl, hb⟩
        · exact ⟨Or.inr h1, h3⟩
      · rintro ⟨rfl | h1, h2⟩
        · exact Or.inl rfl
        · by_cases hab : a = b
          · exact Or.inl hab
          · exact Or.inr ⟨h1, hab, h2⟩

theorem mem_firstKeys {α : Type} [DecidableEq α] {a : α} (l : List α) :
    a ∈ firstKeys l ↔ a ∈ l := by
  rw [firstKeys, mem_firstKeysAux]
  simp

theorem nodup_firstKeysAux {α : Type} [DecidableEq α] (seen : List α) (l : List α) :
    (firstKeysAux seen l).Nodup := by
  induction l generalizing seen with
  | nil => exact List.nodup_nil
  | cons b rest ih =>
    rw [firstKeysAux]
    by_cases hb : b ∈ seen
    · rw [if_pos hb]; exact ih seen
    · rw [if_neg hb]
      refine List.nodup_cons.mpr ⟨?_, ih (b :: seen)⟩
      rw [mem_firstKeysAux]
      rintro ⟨-, h⟩
      exact h (List.mem_cons_self b seen)

theorem nodup_firstKeys {α : Type} [DecidableEq α] (l : List α) :
    (firstKeys l).Nodup := nodup_firstKeysAux [] l

theorem firstKeysAux_eq_nil {α : Type} [DecidableEq α] {seen : List α} {l : List α}
    (h : ∀ b ∈ l, b ∈ seen) : firstKeysAux seen l = [] := by
  induction l with
  | nil => rfl
  | cons b rest ih =>
    rw [firstKeysAux, if_pos (h b (List.mem_cons_self b rest))]
    exact ih fun x hx => h x (List.mem_cons_of_mem _ hx)

/-- A nonempty list maps to a single `dict` key exactly when all its
elements are equal. -/
theorem firstKeys_length_one {α : Type} [DecidableEq α] {l : List α} (hne : l ≠ []) :
    (firstKeys l).length = 1 ↔ ∀ a ∈ l, ∀ b ∈ l, a = b := by
  constructor
  · intro h a ha b hb
    obtain ⟨x, hx⟩ := List.length_eq_one.mp h
    have h1 : a ∈ firstKeys l := (mem_firstKeys l).mpr ha
    have h2 : b ∈ firstKeys l := (mem_firstKeys l).mpr hb
    rw [hx, List.mem_singleton] at h1 h2
    rw [h1, h2]
  · intro h
    obtain ⟨a, rest, rfl⟩ : ∃ a rest, l = a :: rest := by
      cases l with
      | nil => exact absurd rfl hne
      | cons a rest => exact ⟨a, rest, rfl⟩
    rw [firstKeys, firstKeysAux, if_neg (List.not_mem_nil a),
      firstKeysAux_eq_nil (fun b hb => by
        have hba : b = a := h b (List.mem_cons_of_mem _ hb) a (List.mem_cons_self _ _)
        simp [hba])]
    rfl

theorem one_lt_length_of_two_mem {α : Type} {l : List α} {a b : α}
    (ha : a ∈ l) (hb : b ∈ l) (hab : a ≠ b) : 1 < l.length := by
  match l with
  | [] => cases ha
  | [x] =>
    rw [List.mem_singleton] at ha hb
    exact absurd (ha.trans hb.symm) hab
  | x :: y :: rest => simp [List.length_cons]

theorem exists_two_mem_of_nodup {α : Type} {l : List α}
    (hn : l.Nodup) (h : 1 < l.length) : ∃ a ∈ l, ∃ b ∈ l, a ≠ b := by
  match l, h with
  | a :: b :: rest, _ =>
    refine ⟨a, List.mem_cons_self _ _, b, List.mem_cons_of_mem _ (List.mem_cons_self _ _), ?_⟩
    intro hab
    rw [List.nodup_cons] at hn
    exact hn.1 (hab ▸ List.mem_cons_self b rest)

/-! ## The code-point order and the sort -/

theorem listCharLt_irrefl (a : List Char) : listCharLt a a = false := by
  induction a with
  | nil => rfl
  | cons x xs ih =>
    rw [listCharLt, if_neg (Nat.lt_irrefl _), if_neg (Nat.lt_irrefl _)]
    exact ih

theorem listCharLt_trans {a : List Char} :
    ∀ {b c : List Char}, listCharLt a b = true → listCharLt b c = true →
      listCharLt a c = true := by
  induction a with
  | nil =>
    intro b c h1 h2
    cases b with
    | nil => simp [listCharLt] at h1
    | cons y ys =>
      cases c with
      | nil => simp [listCharLt] at h2
      | cons z zs => simp [listCharLt]
  | cons x xs ih =>
    intro b c h1 h2
    cases b with
    | nil => simp [listCharLt] at h1
    | cons y ys =>
      cases c with
      | nil => simp [listCharLt] at h2
      | cons z zs =>
        rw [listCharLt] at h1 h2 ⊢
        by_cases hxy : charVal x < charVal y
        · by_cases hyz : charVal y < charVal z
          · rw [if_pos (show charVal x < charVal z by omega)]
          · rw [if_neg hyz] at h2
            by_cases hzy : charVal z < charVal y
            · rw [if_pos hzy] at h2; cases h2
            · rw [if_pos (show charVal x < charVal z by omega)]
        · rw [if_neg hxy] at h1
          by_cases hyx : charVal y < charVal x
          · rw [if_pos hyx] at h1; cases h1
          · rw [if_neg hyx] at h1
            by_cases hyz : charVal y < charVal z
            · rw [if_pos (show charVal x < charVal z by omega)]
            · rw [if_neg hyz] at h2
              by_cases hzy : charVal z < charVal y
              · rw [if_pos hzy] at h2; cases h2
              · rw [if_neg hzy] at h2
                rw [if_neg (show ¬ charVal x < charVal z by omega),
                  if_neg (show ¬ charVal z < charVal x by omega)]
                exact ih h1 h2

theorem listCharLt_connex {a : List Char} :
    ∀ {b : List Char}, listCharLt a b = false → listCharLt b a = false → a = b := by
  induction a with
  | nil =>
    intro b h1 _
    cases b with
    | nil => rfl
    | cons y ys => simp [listCharLt] at h1
  | cons x xs ih =>
    intro b h1 h2
    cases b with
    | nil => simp [listCharLt] at h2
    | cons y ys =>
      rw [listCharLt] at h1 h2
      by_cases hxy : charVal x < charVal y
      · rw [if_pos hxy] at h1; cases h1
      · by_cases hyx : charVal y < charVal x
        · rw [if_pos hyx] at h2; cases h2
        · rw [if_neg hxy, if_neg hyx] at h1
          rw [if_neg hyx, if_neg hxy] at h2
          have hx : x = y := charVal_inj (by omega)
          rw [hx, ih h1 h2]

theorem strLeB_refl (a : String) : strLeB a a = true := by
  rw [strLeB, listCharLt_irrefl]
  rfl

theorem strLeB_total (a b : String) : strLeB a b = true ∨ strLeB b a = true := by
  by_cases h : listCharLt b.data a.data = true
  · right
    rw [strLeB]
    have hab : listCharLt a.data b.data = false := by
      by_contra hab
      rw [Bool.not_eq_false] at hab
      have hbb := listCharLt_trans h hab
      rw [listCharLt_irrefl] at hbb
      cases hbb
    rw [hab]
    rfl
  · left
    rw [Bool.not_eq_true] at h
    rw [strLeB, h]
    rfl

theorem strLeB_trans {a b c : String} (h1 : strLeB a b = true) (h2 : strLeB b c = true) :
    strLeB a c = true := by
  rw [strLeB, Bool.not_eq_true'] at h1 h2 ⊢
  by_contra hca
  rw [Bool.not_eq_false] at hca
  by_cases hab : listCharLt a.data b.data = true
  · rw [listCharLt_trans hca hab] at h2
    cases h2
  · rw [Bool.not_eq_true] at hab
    have : a.data = b.data := listCharLt_connex hab h1
    rw [this] at hca
    rw [hca] at h2
    cases h2

theorem mem_insertSorted {x a : String} {l : List String} :
    x ∈ insertSorted a l ↔ x = a ∨ x ∈ l := by
  induction l with
  | nil => simp [insertSorted]
  | cons b bs ih =>
    rw [insertSorted]
    by_cases h : strLeB a b = true
    · rw [if_pos h]
      simp [List.mem_cons]
    · rw [if_neg h]
      simp only [List.mem_cons, ih]
      tauto

theorem mem_sortStrings {x : String} {l : List String} :
    x ∈ sortStrings l ↔ x ∈ l := by
  induction l with
  | nil => simp [sortStrings]
  | cons a as ih =>
    rw [sortStrings, mem_insertSorted, ih, List.mem_cons]

theorem sorted_insertSorted {a : String} {l : List String}
    (h : l.Pairwise (fun x y => strLeB x y = true)) :
    (insertSorted a l).Pairwise (fun x y => strLeB x y = true) := by
  induction l with
  | nil => simp [insertSorted]
  | cons b bs ih =>
    rw [List.pairwise_cons] at h
    rw [insertSorted]
    by_cases hab : strLeB a b = true
    · rw [if_pos hab, List.pairwise_cons]
      refine ⟨?_, List.pairwise_cons.mpr h⟩
      intro y hy
      rcases List.mem_cons.mp hy with rfl | hy'
      · exact hab
      · exact strLeB_trans hab (h.1 y hy')
    · rw [if_neg hab, List.pairwise_cons]
      refine ⟨?_, ih h.2⟩
      intro y hy
      rcases mem_insertSorted.mp hy with rfl | hy'
      · rcases strLeB_total y b with h' | h'
        · exact absurd h' hab
        · exact h'
      · exact h.1 y hy'

theorem sorted_sortStrings (l : List String) :
    (sortStrings l).Pairwise (fun x y => strLeB x y = true) := by
  induction l with
  | nil => simp [sortStrings]
  | cons a as ih => exact sorted_insertSorted ih

theorem pairwise_of_forall_mem {β : Type} {R : β → β → Prop} {l : List β}
    (h : ∀ a ∈ l, ∀ b ∈ l, R a b) : l.Pairwise R := by
  induction l with
  | nil => exact List.Pairwise.nil
  | cons x xs ih =>
    refine List.pairwise_cons.mpr ⟨?_, ?_⟩
    · exact fun y hy => h x (List.mem_cons_self _ _) y (List.mem_cons_of_mem _ hy)
    · exact ih fun a ha b hb =>
        h a (List.mem_cons_of_mem _ ha) b (List.mem_cons_of_mem _ hb)

/-- Flattening a sorted key list, where every block produced from key
`k` carries `k`, yields a key-sorted flat list. -/
theorem pairwise_map_flatMap {β : Type} (chin : β → String) (f : String → List β) :
    ∀ (ks : List String), ks.Pairwise (fun x y => strLeB x y = true) →
      (∀ k, ∀ g ∈ f k, chin g = k) →
      ((ks.flatMap f).map chin).Pairwise (fun x y => strLeB x y = true) := by
  intro ks
  induction ks with
  | nil => intro _ _; simp
  | cons k rest ih =>
    intro hs hf
    rw [List.pairwise_cons] at hs
    rw [List.flatMap_cons, List.map_append, List.pairwise_append]
    refine ⟨?_, ih hs.2 hf, ?_⟩
    · apply pairwise_of_forall_mem
      intro x hx y hy
      obtain ⟨a, ha, rfl⟩ := List.mem_map.mp hx
      obtain ⟨b, hb, rfl⟩ := List.mem_map.mp hy
      rw [hf k a ha, hf k b hb]
      exact strLeB_refl k
    · intro x hx y hy
      obtain ⟨a, ha, rfl⟩ := List.mem_map.mp hx
      obtain ⟨b, hb, rfl⟩ := List.mem_map.mp hy
      obtain ⟨k', hk', hbk'⟩ := List.mem_flatMap.mp hb
      rw [hf k a ha, hf k' b hbk']
      exact hs.1 k' hk'

/-! ## Character-class facts -/

theorem isAlpha_range {c : Char} (h : c.isAlpha = true) :
    65 ≤ charVal c ∧ charVal c ≤ 122 := by
  unfold Char.isAlpha Char.isUpper Char.isLower at h
  simp only [Bool.or_eq_true, Bool.and_eq_true, decide_eq_true_eq, ge_iff_le] at h
  have conv1 : ∀ a b : UInt32, a ≤ b → a.toNat ≤ b.toNat := by
    intro a b hab
    rw [UInt32.le_def] at hab
    exact hab
  have e65 : (65 : UInt32).toNat = 65 := rfl
  have e90 : (90 : UInt32).toNat = 90 := rfl
  have e97 : (97 : UInt32).toNat = 97 := rfl
  have e122 : (122 : UInt32).toNat = 122 := rfl
  unfold charVal Char.toNat
  rcases h with ⟨h1, h2⟩ | ⟨h1, h2⟩
  · have a1 := conv1 _ _ h1
    have a2 := conv1 _ _ h2
    rw [e65] at a1
    rw [e90] at a2
    omega
  · have a1 := conv1 _ _ h1
    have a2 := conv1 _ _ h2
    rw [e97] at a1
    rw [e122] at a2
    omega

theorem ascii_facts : asciiLower.all (fun p =>
    decide (strippedL [p.1] = strippedL [p.2]) && p.1.isAlpha
      && isLetterChar p.2 && decide (strippedL [p.1] ≠ [])) = true := by decide

theorem pinyin_facts : pinyinNFD.all (fun p =>
    (asciiLower.lookup p.1).isNone && decide (strippedL [p.1] ≠ [])) = true := by decide

theorem ascii_fact_of_mem {p : Char × Char} (hp : p ∈ asciiLower) :
    strippedL [p.1] = strippedL [p.2] ∧ p.1.isAlpha = true
      ∧ isLetterChar p.2 = true ∧ strippedL [p.1] ≠ [] := by
  have h := List.all_eq_true.mp ascii_facts p hp
  simp only [Bool.and_eq_true, decide_eq_true_eq] at h
  tauto

theorem pinyin_fact_of_mem {p : Char × List Char} (hp : p ∈ pinyinNFD) :
    (asciiLower.lookup p.1).isNone = true ∧ strippedL [p.1] ≠ [] := by
  have h := List.all_eq_true.mp pinyin_facts p hp
  simp only [Bool.and_eq_true, decide_eq_true_eq] at h
  exact h

theorem lookup_isSome_of_mem_keys {α β : Type} [DecidableEq α] {l : List (α × β)} {k : α}
    (h : k ∈ l.map Prod.fst) : (l.lookup k).isSome = true := by
  induction l with
  | nil => cases h
  | cons p rest ih =>
    obtain ⟨a, b⟩ := p
    rw [List.lookup]
    by_cases hk : k = a
    · rw [beq_iff_eq.mpr hk]
      rfl
    · rw [beq_eq_false_iff_ne.mpr hk]
      simp only [List.map_cons, List.mem_cons] at h
      exact ih (h.resolve_left hk)

theorem not_letter_lookup_pinyin_none {c : Char} (h : isLetterChar c = false) :
    pinyinNFD.lookup c = none := by
  apply lookup_eq_none
  intro hm
  unfold isLetterChar at h
  simp only [Bool.or_eq_false_iff] at h
  have hc : (pinyinNFD.map Prod.fst).contains c = true := List.elem_iff.mpr hm
  rw [h.1.2] at hc
  cases hc

theorem not_letter_lookup_ascii_none {c : Char} (h : isLetterChar c = false) :
    asciiLower.lookup c = none := by
  cases hal : asciiLower.lookup c with
  | none => rfl
  | some d =>
    have ha := (ascii_fact_of_mem (lookup_mem hal)).2.1
    unfold isLetterChar at h
    simp only [Bool.or_eq_false_iff] at h
    rw [h.1.1] at ha
    cases ha

theorem not_letter_toLower_self {c : Char} (h : isLetterChar c = false) :
    toLowerChar c = c := by
  rw [toLowerChar, not_letter_lookup_ascii_none h]
  rfl

theorem letter_not_Mn {c : Char} (hpy : pinyinNFD.lookup c = none)
    (hl : isLetterChar c = true) : isMnChar c = false := by
  unfold isLetterChar at hl
  simp only [Bool.or_eq_true] at hl
  rcases hl with (ha | hk) | hr
  · have := isAlpha_range ha
    unfold isMnChar
    simp only [decide_eq_false_iff_not, not_and, not_le]
    omega
  · have := lookup_isSome_of_mem_keys (List.elem_iff.mp hk)
    rw [hpy] at this
    cases this
  · rw [decide_eq_true_eq] at hr
    unfold isMnChar
    simp only [decide_eq_false_iff_not, not_and, not_le]
    omega

theorem isLetter_toLower {c : Char} (hl : isLetterChar c = true) :
    isLetterChar (toLowerChar c) = true := by
  rw [toLowerChar]
  cases hal : asciiLower.lookup c with
  | none => exact hl
  | some d => exact (ascii_fact_of_mem (lookup_mem hal)).2.2.1

/-! ## Normalization algebra -/

theorem fullL_append (a b : List Char) : fullL (a ++ b) = fullL a ++ fullL b := by
  simp [fullL, List.filter_append]

theorem stripTonesL_append (a b : List Char) :
    stripTonesL (a ++ b) = stripTonesL a ++ stripTonesL b := by
  simp [stripTonesL, nfdList, List.flatMap_append, List.filter_append]

theorem strippedL_append (a b : List Char) :
    strippedL (a ++ b) = strippedL a ++ strippedL b := by
  simp [strippedL, stripTonesL_append, List.filter_append]

theorem fullL_single_letter {c : Char} (hl : isLetterChar c = true) :
    fullL [c] = [toLowerChar c] := by
  simp [fullL, hl]

theorem fullL_single_not_letter {c : Char} (hl : isLetterChar c = false) :
    fullL [c] = [] := by
  simp [fullL, hl]

theorem strippedL_single_not_letter {c : Char} (hl : isLetterChar c = false) :
    strippedL [c] = [] := by
  have hpy := not_letter_lookup_pinyin_none hl
  rw [strippedL, stripTonesL, nfdList]
  simp only [List.flatMap_cons, List.flatMap_nil, List.append_nil, nfdChar, hpy]
  by_cases hm : isMnChar c = true
  · simp [hm]
  · rw [Bool.not_eq_true] at hm
    simp [hm, not_letter_toLower_self hl, hl]

theorem strippedL_single_toLower (c : Char) :
    strippedL [toLowerChar c] = strippedL [c] := by
  rw [toLowerChar]
  cases hal : asciiLower.lookup c with
  | none => rfl
  | some d => exact ((ascii_fact_of_mem (lookup_mem hal)).1).symm

theorem strippedL_fullL_single (c : Char) : strippedL (fullL [c]) = strippedL [c] := by
  by_cases hl : isLetterChar c = true
  · rw [fullL_single_letter hl, strippedL_single_toLower]
  · rw [Bool.not_eq_true] at hl
    rw [fullL_single_not_letter hl, strippedL_single_not_letter hl]
    rfl

theorem strippedL_fullL (l : List Char) : strippedL (fullL l) = strippedL l := by
  induction l with
  | nil => rfl
  | cons c cs ih =>
    have h1 : c :: cs = [c] ++ cs := rfl
    rw [h1, fullL_append, strippedL_append, strippedL_append, ih, strippedL_fullL_single]

theorem strippedL_single_ne_nil {c : Char} (hl : isLetterChar c = true) :
    strippedL [c] ≠ [] := by
  cases hpy : pinyinNFD.lookup c with
  | some d => exact (pinyin_fact_of_mem (lookup_mem hpy)).2
  | none =>
    have hmn : isMnChar c = false := letter_not_Mn hpy hl
    have h1 : strippedL [c] = [toLowerChar (toLowerChar c)] := by
      rw [strippedL, stripTonesL, nfdList]
      simp [nfdChar, hpy, hmn, isLetter_toLower hl]
    rw [h1]
    simp

theorem mem_fullL_letter {c' : Char} {l : List Char} (h : c' ∈ fullL l) :
    isLetterChar c' = true := by
  rw [fullL] at h
  obtain ⟨c, hc, rfl⟩ := List.mem_map.mp h
  exact isLetter_toLower (List.of_mem_filter hc)

theorem strippedL_ne_nil_of_fullL_ne_nil {l : List Char} (h : fullL l ≠ []) :
    strippedL (fullL l) ≠ [] := by
  obtain ⟨c, cs, hc⟩ : ∃ c cs, fullL l = c :: cs := by
    cases hf : fullL l with
    | nil => exact absurd hf h
    | cons c cs => exact ⟨c, cs, rfl⟩
  have hcl : isLetterChar c = true :=
    mem_fullL_letter (l := l) (by rw [hc]; exact List.mem_cons_self _ _)
  rw [hc]
  have h2 : c :: cs = [c] ++ cs := rfl
  rw [h2, strippedL_append]
  intro hnil
  exact strippedL_single_ne_nil hcl (List.append_eq_nil.mp hnil).1

/-- **C10 core**: stripping an already full-normalized pinyin gives the
same result as stripping the raw pinyin. -/
theorem stripped_of_full (p : String) :
    normalize_pinyin_stripped (normalize_pinyin_full p) = normalize_pinyin_stripped p :=
  String.ext (strippedL_fullL p.data)

/-- A non-empty full normalization strips to a non-empty key. -/
theorem stripped_ne_empty_of_full_ne_empty {p : String}
    (h : normalize_pinyin_full p ≠ "") :
    normalize_pinyin_stripped (normalize_pinyin_full p) ≠ "" := by
  intro hc
  apply strippedL_ne_nil_of_fullL_ne_nil (l := p.data)
  · intro hn
    apply h
    apply String.ext
    rw [normalize_pinyin_full]
    exact hn
  · rw [String.ext_iff] at hc
    exact hc

/-! ## Occurrence and grouping lemmas -/

theorem hasLetterStr_empty : hasLetterStr "" = false := rfl

theorem occOfChunk_eq_some {e : Entry} {c : Chunk} {o : Occ} :
    occOfChunk e c = some o ↔
      hasLetterStr (c.chinese.getD "") = true ∧
        normalize_pinyin_full (c.pinyin.getD "") ≠ "" ∧
        o = ⟨c.chinese.getD "", normalize_pinyin_full (c.pinyin.getD ""), e⟩ := by
  rw [occOfChunk]
  by_cases h : (hasLetterStr (c.chinese.getD "")
      && decide (normalize_pinyin_full (c.pinyin.getD "") ≠ "")) = true
  · rw [if_pos h]
    simp only [Bool.and_eq_true, decide_eq_true_eq] at h
    constructor
    · intro hs
      exact ⟨h.1, h.2, (Option.some_inj.mp hs).symm⟩
    · rintro ⟨-, -, rfl⟩
      rfl
  · rw [if_neg h]
    simp only [Bool.and_eq_true, decide_eq_true_eq] at h
    constructor
    · intro hf
      cases hf
    · intro ⟨h1, h2, _⟩
      exact absurd ⟨h1, h2⟩ h

theorem mem_occs {data : List Entry} {o : Occ} :
    o ∈ occs data ↔ ∃ e ∈ data, ∃ c ∈ e.chunks.getD [], occOfChunk e c = some o := by
  rw [occs, List.mem_flatMap]
  constructor
  · rintro ⟨e, he, ho⟩
    rw [entryOccs, List.mem_filterMap] at ho
    obtain ⟨c, hc, hoc⟩ := ho
    exact ⟨e, he, c, hc, hoc⟩
  · rintro ⟨e, he, c, hc, hoc⟩
    exact ⟨e, he, List.mem_filterMap.mpr ⟨c, hc, hoc⟩⟩

theorem occ_props {data : List Entry} {o : Occ} (h : o ∈ occs data) :
    hasLetterStr o.ch = true ∧ o.full ≠ "" ∧ o.entry ∈ data ∧
      ∃ c ∈ o.entry.chunks.getD [], c.chinese = some o.ch ∧
        normalize_pinyin_full (c.pinyin.getD "") = o.full := by
  obtain ⟨e, he, c, hc, hoc⟩ := mem_occs.mp h
  obtain ⟨h1, h2, rfl⟩ := occOfChunk_eq_some.mp hoc
  refine ⟨h1, h2, he, c, hc, ?_, rfl⟩
  cases hcc : c.chinese with
  | none =>
    rw [hcc] at h1
    rw [Option.getD_none] at h1
    rw [hasLetterStr_empty] at h1
    cases h1
  | some s => rfl

theorem occ_of_chunk_mem {data : List Entry} {e : Entry} {c : Chunk}
    (he : e ∈ data) (hc : c ∈ e.chunks.getD [])
    (h1 : hasLetterStr (c.chinese.getD "") = true)
    (h2 : normalize_pinyin_full (c.pinyin.getD "") ≠ "") :
    (⟨c.chinese.getD "", normalize_pinyin_full (c.pinyin.getD ""), e⟩ : Occ) ∈ occs data :=
  mem_occs.mpr ⟨e, he, c, hc, occOfChunk_eq_some.mpr ⟨h1, h2, rfl⟩⟩

theorem mem_claimFulls_iff {data : List Entry} {ch f : String} :
    f ∈ claimFulls data ch ↔ ∃ e ∈ data, ∃ c ∈ e.chunks.getD [],
      c.chinese.getD "" = ch ∧ normalize_pinyin_full (c.pinyin.getD "") = f := by
  rw [claimFulls, List.mem_map]
  constructor
  · rintro ⟨c, hc, rfl⟩
    rw [chunkOccurrencesOf, List.mem_flatMap] at hc
    obtain ⟨e, he, hcf⟩ := hc
    rw [List.mem_filter, decide_eq_true_eq] at hcf
    exact ⟨e, he, c, hcf.1, hcf.2, rfl⟩
  · rintro ⟨e, he, c, hc, hch, rfl⟩
    refine ⟨c, ?_, rfl⟩
    rw [chunkOccurrencesOf, List.mem_flatMap]
    exact ⟨e, he, List.mem_filter.mpr ⟨hc, decide_eq_true hch⟩⟩

/-- For a letter-bearing chunk text, the non-empty claim-side full
normalizations are exactly the full keys collected in `word_map`. -/
theorem claimFulls_occs {data : List Entry} {ch f : String}
    (hch : hasLetterStr ch = true) (hf : f ≠ "") :
    f ∈ claimFulls data ch ↔ ∃ o ∈ occs data, o.ch = ch ∧ o.full = f := by
  constructor
  · intro h
    obtain ⟨e, he, c, hc, hcch, hcf⟩ := mem_claimFulls_iff.mp h
    refine ⟨⟨c.chinese.getD "", normalize_pinyin_full (c.pinyin.getD ""), e⟩,
      occ_of_chunk_mem he hc (by rw [hcch]; exact hch) (by rw [hcf]; exact hf),
      hcch, hcf⟩
  · rintro ⟨o, ho, rfl, rfl⟩
    obtain ⟨-, -, hmem, c, hc, hcch, hcf⟩ := occ_props ho
    refine mem_claimFulls_iff.mpr ⟨o.entry, hmem, c, hc, ?_, hcf⟩
    rw [hcch]
    rfl

theorem string_empty_append (s : String) : "" ++ s = s := by
  apply String.ext
  rw [String.data_append]
  rfl

theorem fullChinese_append (a b : List Chunk) :
    fullChinese (a ++ b) = fullChinese a ++ fullChinese b := by
  induction a with
  | nil =>
    rw [List.nil_append, fullChinese, string_empty_append]
  | cons c cs ih =>
    rw [List.cons_append, fullChinese, fullChinese, ih, String.append_assoc]

/-- Every record with a `chunks` field lands in the `chinese_groups`
bucket keyed by its concatenated Chinese text. -/
theorem mem_chineseGroups_of_mem {data : List Entry} {e : Entry} {cs : List Chunk}
    (he : e ∈ data) (hcs : e.chunks = some cs) :
    ∃ es, (fullChinese cs, es) ∈ chineseGroups data ∧ e ∈ es := by
  have hp : (fullChinese cs, e) ∈ dupPairs data :=
    List.mem_filterMap.mpr ⟨e, he, by rw [dupPair, hcs]; rfl⟩
  have hk : fullChinese cs ∈ (dupPairs data).map Prod.fst :=
    List.mem_map.mpr ⟨_, hp, rfl⟩
  refine ⟨((dupPairs data).filter (fun p => decide (p.1 = fullChinese cs))).map Prod.snd,
    ?_, ?_⟩
  · rw [chineseGroups]
    exact List.mem_map.mpr ⟨fullChinese cs, (mem_firstKeys _).mpr hk, rfl⟩
  · exact List.mem_map.mpr ⟨(fullChinese cs, e), List.mem_filter.mpr ⟨hp, by simp⟩, rfl⟩

/-- The reported duplicate groups are exactly the Chinese-text groups of
two or more records whose members all share one normalized sentence
pinyin key. -/
theorem mem_dupGroups_iff {data : List Entry} {ch : String} {es : List Entry} :
    (ch, es) ∈ dupGroups data ↔
      (ch, es) ∈ chineseGroups data ∧ 1 < es.length ∧
        ∀ e1 ∈ es, ∀ e2 ∈ es, sentKey e1 = sentKey e2 := by
  rw [dupGroups, List.mem_filter]
  constructor
  · rintro ⟨hmem, hcond⟩
    simp only [Bool.and_eq_true, decide_eq_true_eq] at hcond
    have hne : es.map sentKey ≠ [] := by
      intro h0
      rw [List.map_eq_nil_iff] at h0
      rw [h0] at hcond
      simp at hcond
    have hall := (firstKeys_length_one hne).mp hcond.2
    refine ⟨hmem, hcond.1, ?_⟩
    intro e1 h1 e2 h2
    exact hall _ (List.mem_map_of_mem _ h1) _ (List.mem_map_of_mem _ h2)
  · rintro ⟨hmem, hlen, hall⟩
    refine ⟨hmem, ?_⟩
    simp only [Bool.and_eq_true, decide_eq_true_eq]
    refine ⟨hlen, ?_⟩
    have hne : es.map sentKey ≠ [] := by
      intro h0
      rw [List.map_eq_nil_iff] at h0
      rw [h0] at hlen
      simp at hlen
    apply (firstKeys_length_one hne).mpr
    intro a ha b hb
    obtain ⟨e1, he1, rfl⟩ := List.mem_map.mp ha
    obtain ⟨e2, he2, rfl⟩ := List.mem_map.mp hb
    exact hall e1 he1 e2 he2

/-! ## Tone-section structure -/

theorem mem_processKey {O : List Occ} {k : String} {g : ToneGroup} :
    g ∈ processKey O k ↔
      ∃ s, 1 < ((firstKeys ((O.filter (fun o => decide (o.ch = k))).map Occ.full)).filter
            (fun f => decide (normalize_pinyin_stripped f = s))).length ∧
        g = ⟨k, (sortStrings ((firstKeys ((O.filter (fun o => decide (o.ch = k))).map
              Occ.full)).filter (fun f => decide (normalize_pinyin_stripped f = s)))).map
            (renderToneLine k (O.filter (fun o => decide (o.ch = k))))⟩ := by
  simp only [processKey]
  by_cases hgate :
      (firstKeys ((O.filter (fun o => decide (o.ch = k))).map Occ.full)).length ≤ 1
  · rw [if_pos hgate]
    simp only [List.not_mem_nil, false_iff]
    rintro ⟨s, hs, -⟩
    have hle := List.length_filter_le
      (fun f => decide (normalize_pinyin_stripped f = s))
      (firstKeys ((O.filter (fun o => decide (o.ch = k))).map Occ.full))
    omega
  · rw [if_neg hgate]
    rw [List.mem_flatMap]
    constructor
    · rintro ⟨s, hsmem, hg⟩
      by_cases hlen : 1 < ((firstKeys ((O.filter (fun o => decide (o.ch = k))).map
          Occ.full)).filter (fun f => decide (normalize_pinyin_stripped f = s))).length
      · rw [if_pos hlen, List.mem_singleton] at hg
        exact ⟨s, hlen, hg⟩
      · rw [if_neg hlen] at hg
        cases hg
    · rintro ⟨s, hlen, rfl⟩
      refine ⟨s, ?_, ?_⟩
      · obtain ⟨f, hf⟩ : ∃ f, f ∈ (firstKeys ((O.filter (fun o => decide (o.ch = k))).map
            Occ.full)).filter (fun f => decide (normalize_pinyin_stripped f = s)) := by
          cases hl : (firstKeys ((O.filter (fun o => decide (o.ch = k))).map
              Occ.full)).filter (fun f => decide (normalize_pinyin_stripped f = s)) with
          | nil => rw [hl] at hlen; simp at hlen
          | cons x xs => exact ⟨x, hl ▸ List.mem_cons_self x xs⟩
        rw [List.mem_filter, decide_eq_true_eq] at hf
        rw [mem_firstKeys]
        exact List.mem_map.mpr ⟨f, hf.1, hf.2⟩
      · rw [if_pos hlen]
        exact List.mem_singleton.mpr rfl

theorem processKey_chinese {O : List Occ} {k : String} {g : ToneGroup}
    (h : g ∈ processKey O k) : g.chinese = k := by
  obtain ⟨s, -, rfl⟩ := mem_processKey.mp h
  rfl

theorem mem_toneSection {data : List Entry} {g : ToneGroup} :
    g ∈ toneSection data ↔
      ∃ k ∈ firstKeys ((occs data).map Occ.ch), g ∈ processKey (occs data) k := by
  rw [toneSection, List.mem_flatMap]
  constructor
  · rintro ⟨k, hk, hg⟩
    exact ⟨k, mem_sortStrings.mp hk, hg⟩
  · rintro ⟨k, hk, hg⟩
    exact ⟨k, mem_sortStrings.mpr hk, hg⟩

/-! ## The claims -/

/-- **C10**: for every string `p`, stripping the full-letters
normalization of `p` equals stripping `p` directly
(`normalize_pinyin_stripped(normalize_pinyin_full(p)) =
normalize_pinyin_stripped(p)`), the algebraic law the tone pass relies
on when it strips already-normalized full keys. -/
theorem claim_C10 (p : String) :
    normalize_pinyin_stripped (normalize_pinyin_full p) = normalize_pinyin_stripped p :=
  stripped_of_full p

/-- **C2**: a distinct Chinese chunk text appears in the
tone-inconsistency report iff it has letter-category characters and,
among the full-letters pinyin normalizations of its chunk occurrences,
two distinct ones share the same stripped normalization. -/
theorem claim_C2 (data : List Entry) (ch : String) :
    (∃ g ∈ (sanitize data).toneGroups, g.chinese = ch) ↔
      (hasLetterStr ch = true ∧ ∃ f1 f2, f1 ∈ claimFulls data ch ∧
        f2 ∈ claimFulls data ch ∧ f1 ≠ f2 ∧
        normalize_pinyin_stripped f1 = normalize_pinyin_stripped f2) := by
  show (∃ g ∈ toneSection data, g.chinese = ch) ↔ _
  constructor
  · rintro ⟨g, hg, rfl⟩
    obtain ⟨k, hk, hpk⟩ := mem_toneSection.mp hg
    have hck : g.chinese = k := processKey_chinese hpk
    obtain ⟨s, hlen, hgeq⟩ := mem_processKey.mp hpk
    have hnodup : ((firstKeys (((occs data).filter (fun o => decide (o.ch = k))).map
        Occ.full)).filter (fun f => decide (normalize_pinyin_stripped f = s))).Nodup :=
      (nodup_firstKeys _).filter _
    obtain ⟨f1, hf1, f2, hf2, hne⟩ := exists_two_mem_of_nodup hnodup hlen
    rw [List.mem_filter, decide_eq_true_eq] at hf1 hf2
    have hocc : ∀ f, f ∈ firstKeys (((occs data).filter (fun o => decide (o.ch = k))).map
        Occ.full) → ∃ o ∈ occs data, o.ch = k ∧ o.full = f := by
      intro f hf
      rw [mem_firstKeys] at hf
      obtain ⟨o, ho, rfl⟩ := List.mem_map.mp hf
      rw [List.mem_filter, decide_eq_true_eq] at ho
      exact ⟨o, ho.1, ho.2, rfl⟩
    obtain ⟨o1, ho1, hoch1, hof1⟩ := hocc f1 hf1.1
    obtain ⟨o2, ho2, hoch2, hof2⟩ := hocc f2 hf2.1
    have hp1 := occ_props ho1
    refine ⟨by rw [hck, ← hoch1]; exact hp1.1, f1, f2, ?_, ?_, hne, by rw [hf1.2, hf2.2]⟩
    · rw [hck, ← hoch1, ← hof1]
      exact (claimFulls_occs (hoch1 ▸ hp1.1) (hof1 ▸ hp1.2.1)).mpr ⟨o1, ho1, rfl, rfl⟩
    · have hp2 := occ_props ho2
      rw [hck, ← hoch2, ← hof2]
      exact (claimFulls_occs (hoch2 ▸ hp2.1) (hof2 ▸ hp2.2.1)).mpr ⟨o2, ho2, rfl, rfl⟩
  · rintro ⟨hch, f1, f2, h1, h2, hne, hstr⟩
    have hfne : f1 ≠ "" ∧ f2 ≠ "" := by
      constructor
      · intro h0
        obtain ⟨e, he, c, hc, hcch, hcf⟩ := mem_claimFulls_iff.mp h2
        have hf2 : f2 ≠ "" := by
          intro h0'
          exact hne (h0.trans h0'.symm)
        have : normalize_pinyin_stripped f2 ≠ "" := by
          rw [← hcf]
          exact stripped_ne_empty_of_full_ne_empty (hcf ▸ hf2)
        apply this
        rw [← hstr, h0]
        rfl
      · intro h0
        obtain ⟨e, he, c, hc, hcch, hcf⟩ := mem_claimFulls_iff.mp h1
        have hf1 : f1 ≠ "" := by
          intro h0'
          exact hne (h0'.trans h0.symm)
        have : normalize_pinyin_stripped f1 ≠ "" := by
          rw [← hcf]
          exact stripped_ne_empty_of_full_ne_empty (hcf ▸ hf1)
        apply this
        rw [hstr, h0]
        rfl
    obtain ⟨o1, ho1, hoch1, hof1⟩ := (claimFulls_occs hch hfne.1).mp h1
    obtain ⟨o2, ho2, hoch2, hof2⟩ := (claimFulls_occs hch hfne.2).mp h2
    have hk : ch ∈ firstKeys ((occs data).map Occ.ch) :=
      (mem_firstKeys _).mpr (List.mem_map.mpr ⟨o1, ho1, hoch1⟩)
    have hgrp1 : o1 ∈ (occs data).filter (fun o => decide (o.ch = ch)) :=
      List.mem_filter.mpr ⟨ho1, decide_eq_true hoch1⟩
    have hgrp2 : o2 ∈ (occs data).filter (fun o => decide (o.ch = ch)) :=
      List.mem_filter.mpr ⟨ho2, decide_eq_true hoch2⟩
    have hfulls1 : f1 ∈ firstKeys (((occs data).filter (fun o => decide (o.ch = ch))).map
        Occ.full) :=
      (mem_firstKeys _).mpr (List.mem_map.mpr ⟨o1, hgrp1, hof1⟩)
    have hfulls2 : f2 ∈ firstKeys (((occs data).filter (fun o => decide (o.ch = ch))).map
        Occ.full) :=
      (mem_firstKeys _).mpr (List.mem_map.mpr ⟨o2, hgrp2, hof2⟩)
    have hfps1 : f1 ∈ (firstKeys (((occs data).filter (fun o => decide (o.ch = ch))).map
        Occ.full)).filter
          (fun f => decide (normalize_pinyin_stripped f = normalize_pinyin_stripped f1)) :=
      List.mem_filter.mpr ⟨hfulls1, by simp⟩
    have hfps2 : f2 ∈ (firstKeys (((occs data).filter (fun o => decide (o.ch = ch))).map
        Occ.full)).filter
          (fun f => decide (normalize_pinyin_stripped f = normalize_pinyin_stripped f1)) :=
      List.mem_filter.mpr ⟨hfulls2, by simp [hstr.symm]⟩
    have hlen := one_lt_length_of_two_mem hfps1 hfps2 hne
    have hg : (⟨ch, (sortStrings ((firstKeys (((occs data).filter
        (fun o => decide (o.ch = ch))).map Occ.full)).filter
        (fun f => decide (normalize_pinyin_stripped f = normalize_pinyin_stripped f1)))).map
        (renderToneLine ch ((occs data).filter (fun o => decide (o.ch = ch))))⟩ : ToneGroup)
        ∈ toneSection data :=
      mem_toneSection.mpr ⟨ch, hk,
        mem_processKey.mpr ⟨normalize_pinyin_stripped f1, hlen, rfl⟩⟩
    exact ⟨_, hg, rfl⟩

/-- **C1, counterexample**: in the corpus `[entA, entB, entC]` the pair
`entA`/`entB` has character-identical concatenated Chinese text and
equal normalized pinyin keys — the claim's condition for being reported
as duplicates, explicitly also in the presence of the third record
`entC` with the same Chinese text but a different normalized pinyin —
yet the pair appears in no reported duplicate group: the code only
reports a Chinese-text group when *all* of its records share one
normalized pinyin key. -/
theorem claim_C1_counterexample :
    (fullChineseOf entA = fullChineseOf entB ∧ sentKey entA = sentKey entB ∧
      entA ≠ entB ∧ fullChineseOf entC = fullChineseOf entA ∧
      sentKey entC ≠ sentKey entA) ∧
    ¬ pairReported [entA, entB, entC] entA entB := by
  constructor
  · exact ⟨by decide, by decide, by decide, by decide, by decide⟩
  · rw [pairReported]
    decide

/-- **C1, amended**: a group of records is reported as duplicates iff it
is the set of all records sharing one concatenated Chinese text, it has
at least two members, and *all* of its members' concatenated pinyin
normalize to one full-letters key.  (In particular a pair with matching
text and key is not reported when a third record shares the text with a
different key.) -/
theorem claim_C1_amended (data : List Entry) (ch : String) (es : List Entry) :
    (ch, es) ∈ dupGroups data ↔
      (ch, es) ∈ chineseGroups data ∧ 1 < es.length ∧
        ∀ e1 ∈ es, ∀ e2 ∈ es, sentKey e1 = sentKey e2 :=
  mem_dupGroups_iff

/-- **C4**: two records in the same reported duplicate group always have
equal normalized sentence pinyin keys; hence two records with identical
concatenated Chinese text whose keys differ never appear in the same
reported duplicate group. -/
theorem claim_C4 (data : List Entry) (ch : String) (es : List Entry) (e1 e2 : Entry)
    (hg : (ch, es) ∈ dupGroups data) (h1 : e1 ∈ es) (h2 : e2 ∈ es) :
    sentKey e1 = sentKey e2 :=
  (mem_dupGroups_iff.mp hg).2.2 e1 h1 e2 h2

/-- Witness for C4 at a concrete two-record duplicate group. -/
theorem claim_C4_witness :
    ("你好", [entA, entB]) ∈ dupGroups [entA, entB] ∧ sentKey entA = sentKey entB :=
  ⟨by decide, claim_C4 [entA, entB] "你好" [entA, entB] entA entB (by decide)
    (by decide) (by decide)⟩

/-- **C6**: whenever a corpus has exactly fifteen duplicate groups,
exactly the first ten (in first-occurrence order of the Chinese text)
are printed individually and the summary line says five more remain; in
general the printed list is the first ten reported groups. -/
theorem claim_C6 (data : List Entry) (h : (dupGroups data).length = 15) :
    (sanitize data).dupPrinted = ((dupGroups data).take 10).map renderDup ∧
      (sanitize data).dupPrinted.length = 10 ∧
      (sanitize data).dupSummary = DupSummary.moreThanTen 5 := by
  refine ⟨rfl, ?_, ?_⟩
  · show (((dupGroups data).take 10).map renderDup).length = 10
    rw [List.length_map, List.length_take, h]
    decide
  · show dupSummaryOf (dupGroups data).length = DupSummary.moreThanTen 5
    rw [h]
    decide

/-- Witness for C6 at a concrete corpus with fifteen duplicate groups. -/
theorem claim_C6_witness :
    (dupGroups dataFifteen).length = 15 ∧
      (sanitize dataFifteen).dupPrinted.length = 10 ∧
      (sanitize dataFifteen).dupSummary = DupSummary.moreThanTen 5 := by
  have h : (dupGroups dataFifteen).length = 15 := by decide
  exact ⟨h, (claim_C6 dataFifteen h).2.1, (claim_C6 dataFifteen h).2.2⟩

/-- **C7**: a record lacking the `chunks` field is silently skipped: the
whole analysis report over any corpus containing it equals the report
over the corpus with the record removed, and the analysis is total (no
error path exists). -/
theorem claim_C7 (d1 d2 : List Entry) (r : Entry) (hr : r.chunks = none) :
    sanitize (d1 ++ r :: d2) = sanitize (d1 ++ d2) := by
  have hdp : dupPair r = none := by
    rw [dupPair, hr]
    rfl
  have heo : entryOccs r = [] := by
    rw [entryOccs, hr]
    rfl
  have hd : dupPairs (d1 ++ r :: d2) = dupPairs (d1 ++ d2) := by
    rw [dupPairs, dupPairs, List.filterMap_append, List.filterMap_append,
      List.filterMap_cons, hdp]
  have ho : occs (d1 ++ r :: d2) = occs (d1 ++ d2) := by
    rw [occs, occs, List.flatMap_append, List.flatMap_append, List.flatMap_cons, heo,
      List.nil_append]
  simp only [sanitize, dupGroups, chineseGroups, toneSection, hd, ho]

/-- Witness for C7: a one-record corpus whose record lacks `chunks`
yields the same analysis report as the empty corpus. -/
theorem claim_C7_witness :
    sanitize [(⟨some "x", none⟩ : Entry)] = sanitize [] :=
  claim_C7 [] [] ⟨some "x", none⟩ rfl

theorem mem_rawVariants_iff {data : List Entry} {ch r : String} :
    r ∈ rawVariants data ch ↔ ∃ e ∈ data, ∃ c ∈ e.chunks.getD [],
      c.chinese.getD "" = ch ∧ c.pinyin.getD "" = r := by
  rw [rawVariants, List.mem_map]
  constructor
  · rintro ⟨c, hc, rfl⟩
    rw [chunkOccurrencesOf, List.mem_flatMap] at hc
    obtain ⟨e, he, hcf⟩ := hc
    rw [List.mem_filter, decide_eq_true_eq] at hcf
    exact ⟨e, he, c, hcf.1, hcf.2, rfl⟩
  · rintro ⟨e, he, c, hc, hch, rfl⟩
    refine ⟨c, ?_, rfl⟩
    rw [chunkOccurrencesOf, List.mem_flatMap]
    exact ⟨e, he, List.mem_filter.mpr ⟨hc, decide_eq_true hch⟩⟩

theorem chunklist_occ_count {e : Entry} {ch f : String} (cs : List Chunk)
    (hch : hasLetterStr ch = true) (hf : f ≠ "") :
    ((cs.filterMap (occOfChunk e)).filter
        (fun o => decide (o.full = f) && decide (o.ch = ch))).length =
      ((cs.filter (fun c => decide (c.chinese.getD "" = ch))).map
        (fun c => normalize_pinyin_full (c.pinyin.getD ""))).count f := by
  induction cs with
  | nil => rfl
  | cons c cs' ih =>
    rw [List.filterMap_cons]
    by_cases hcch : c.chinese.getD "" = ch
    · by_cases hcf : normalize_pinyin_full (c.pinyin.getD "") = ""
      · have hnone : occOfChunk e c = none := by
          rw [occOfChunk, if_neg]
          simp [hcf]
        have hne' : ¬ normalize_pinyin_full (c.pinyin.getD "") = f := by
          rw [hcf]
          exact fun h0 => hf h0.symm
        simp only [hnone, List.filter_cons, List.map_cons, List.count_cons,
          decide_eq_true hcch, if_true, ih]
        simp [hne']
      · have hsome : occOfChunk e c =
            some ⟨ch, normalize_pinyin_full (c.pinyin.getD ""), e⟩ :=
          occOfChunk_eq_some.mpr ⟨by rw [hcch]; exact hch, hcf, by rw [hcch]⟩
        by_cases hpf : normalize_pinyin_full (c.pinyin.getD "") = f
        · simp only [hsome, List.filter_cons, List.map_cons, List.count_cons,
            decide_eq_true hcch, if_true]
          simp [hpf, ih]
        · simp only [hsome, List.filter_cons, List.map_cons, List.count_cons,
            decide_eq_true hcch, if_true]
          simp [hpf, ih]
    · cases hoc : occOfChunk e c with
      | none =>
        simp only [hoc, List.filter_cons]
        simp [hcch, ih]
      | some o =>
        obtain ⟨-, -, rfl⟩ := occOfChunk_eq_some.mp hoc
        simp only [hoc, List.filter_cons]
        simp [hcch, ih]

/-- The number of `word_map` occurrences of `(ch, f)` equals the number
of chunk occurrences of `ch` whose pinyin normalizes to `f`. -/
theorem occs_filter_length_eq_count {data : List Entry} {ch f : String}
    (hch : hasLetterStr ch = true) (hf : f ≠ "") :
    ((occs data).filter (fun o => decide (o.full = f) && decide (o.ch = ch))).length =
      (claimFulls data ch).count f := by
  induction data with
  | nil => rfl
  | cons e rest ih =>
    rw [occs, List.flatMap_cons, List.filter_append, List.length_append]
    rw [claimFulls, chunkOccurrencesOf, List.flatMap_cons, List.map_append,
      List.count_append]
    rw [occs] at ih
    rw [claimFulls, chunkOccurrencesOf] at ih
    rw [ih, entryOccs]
    rw [chunklist_occ_count (e.chunks.getD []) hch hf]

theorem findSample_head {ch f : String} {e : Entry} {t : List Entry} {r : String}
    (h : entryFirstSample e ch f = some r) (hr : r ≠ "") :
    findSample ch f (e :: t) = r := by
  rw [findSample, findSampleGo, h]
  simp [hr]

theorem find?_congr_pred {α : Type} {p q : α → Bool} (h : ∀ a, p a = q a) :
    ∀ l : List α, l.find? p = l.find? q := by
  intro l
  induction l with
  | nil => rfl
  | cons a as ih =>
    by_cases hpa : p a = true
    · have hqa : q a = true := by rw [← h a]; exact hpa
      rw [List.find?_cons_of_pos _ hpa, List.find?_cons_of_pos _ hqa]
    · have hqa : ¬ q a = true := by rw [← h a]; exact hpa
      rw [List.find?_cons_of_neg _ hpa, List.find?_cons_of_neg _ hqa]
      exact ih

/-- For a non-empty Chinese text the claim-side chunk predicate
(`chunk.get('chinese', '') == ch`) and the sample-search predicate
(`chunk.get('chinese') == ch`) select the same chunks. -/
theorem find?_chunkPred_eq {ch f : String} (hch : ch ≠ "") (l : List Chunk) :
    l.find? (fun c => decide (c.chinese.getD "" = ch)
        && decide (normalize_pinyin_full (c.pinyin.getD "") = f))
      = l.find? (fun c => decide (c.chinese = some ch)
        && decide (normalize_pinyin_full (c.pinyin.getD "") = f)) := by
  apply find?_congr_pred
  intro c
  have hdd : decide (c.chinese.getD "" = ch) = decide (c.chinese = some ch) := by
    apply decide_eq_decide.mpr
    cases hcc : c.chinese with
    | none =>
      simp only [Option.getD_none]
      constructor
      · intro h0
        exact absurd h0.symm hch
      · intro h0
        cases h0
    | some v =>
      simp only [Option.getD_some, Option.some_inj]
  rw [hdd]

theorem nodup_insertSorted {a : String} {l : List String} (ha : a ∉ l) (hl : l.Nodup) :
    (insertSorted a l).Nodup := by
  induction l with
  | nil => simp [insertSorted]
  | cons b bs ih =>
    rw [insertSorted]
    rw [List.nodup_cons] at hl
    by_cases hab : strLeB a b = true
    · rw [if_pos hab]
      exact List.nodup_cons.mpr ⟨ha, List.nodup_cons.mpr hl⟩
    · rw [if_neg hab]
      refine List.nodup_cons.mpr ⟨?_, ih (fun h => ha (List.mem_cons_of_mem _ h)) hl.2⟩
      intro hb
      rcases mem_insertSorted.mp hb with rfl | hb'
      · exact ha (List.mem_cons_self _ _)
      · exact hl.1 hb'

theorem nodup_sortStrings {l : List String} (hl : l.Nodup) : (sortStrings l).Nodup := by
  induction l with
  | nil => simp [sortStrings]
  | cons a as ih =>
    rw [sortStrings]
    rw [List.nodup_cons] at hl
    exact nodup_insertSorted (fun h => hl.1 (mem_sortStrings.mp h)) (ih hl.2)

/-- If the first `word_map` occurrence with Chinese text `ch` and full
key `f` is `o0`, and `c1` is the first matching chunk of `o0`'s record,
then `(o0.entry, c1)` is the overall first matching chunk occurrence of
the corpus: earlier records can have no matching chunk, since any
matching chunk would itself be an occurrence. -/
theorem firstOcc_eq {ch f : String} (hletter : hasLetterStr ch = true) (hf : f ≠ "") :
    ∀ (data : List Entry) (o0 : Occ) (rest : List Occ) (c1 : Chunk),
      ((occs data).filter (fun o => decide (o.ch = ch))).filter
          (fun o => decide (o.full = f)) = o0 :: rest →
      (o0.entry.chunks.getD []).find? (fun c => decide (c.chinese = some ch)
        && decide (normalize_pinyin_full (c.pinyin.getD "") = f)) = some c1 →
      firstOcc data ch f = some (o0.entry, c1) := by
  have hch : ch ≠ "" := by
    intro h0
    rw [h0, hasLetterStr_empty] at hletter
    cases hletter
  intro data
  induction data with
  | nil =>
    intro o0 rest c1 hcons _
    simp [occs] at hcons
  | cons e restd ih =>
    intro o0 rest c1 hcons hfind
    rw [occs, List.flatMap_cons, List.filter_append, List.filter_append] at hcons
    rw [firstOcc, List.findSome?_cons]
    cases hfe : (e.chunks.getD []).find? (fun c => decide (c.chinese.getD "" = ch)
        && decide (normalize_pinyin_full (c.pinyin.getD "") = f)) with
    | some cm =>
      have hfe' : (e.chunks.getD []).find? (fun c => decide (c.chinese = some ch)
          && decide (normalize_pinyin_full (c.pinyin.getD "") = f)) = some cm := by
        rw [← find?_chunkPred_eq hch]
        exact hfe
      have hcmp := List.find?_some hfe
      rw [Bool.and_eq_true, decide_eq_true_eq, decide_eq_true_eq] at hcmp
      have hcmm := List.mem_of_find?_eq_some hfe
      have hocm : occOfChunk e cm = some ⟨ch, f, e⟩ :=
        occOfChunk_eq_some.mpr ⟨by rw [hcmp.1]; exact hletter,
          by rw [hcmp.2]; exact hf, by rw [hcmp.1, hcmp.2]⟩
      have hmemocc : (⟨ch, f, e⟩ : Occ) ∈ ((entryOccs e).filter
          (fun o => decide (o.ch = ch))).filter (fun o => decide (o.full = f)) := by
        refine List.mem_filter.mpr ⟨List.mem_filter.mpr ⟨?_, by simp⟩, by simp⟩
        rw [entryOccs]
        exact List.mem_filterMap.mpr ⟨cm, hcmm, hocm⟩
      obtain ⟨x, xs, hxs⟩ : ∃ x xs, ((entryOccs e).filter
          (fun o => decide (o.ch = ch))).filter (fun o => decide (o.full = f))
          = x :: xs := by
        cases hl0 : ((entryOccs e).filter (fun o => decide (o.ch = ch))).filter
            (fun o => decide (o.full = f)) with
        | nil =>
          rw [hl0] at hmemocc
          cases hmemocc
        | cons x xs => exact ⟨x, xs, rfl⟩
      rw [hxs, List.cons_append] at hcons
      have hxo0 : x = o0 := by
        injection hcons with h1 h2
      have hxentry : x.entry = e := by
        have hx : x ∈ ((entryOccs e).filter (fun o => decide (o.ch = ch))).filter
            (fun o => decide (o.full = f)) := by
          rw [hxs]
          exact List.mem_cons_self _ _
        have hx1 := List.mem_of_mem_filter (List.mem_of_mem_filter hx)
        rw [entryOccs] at hx1
        obtain ⟨c', -, hc'⟩ := List.mem_filterMap.mp hx1
        obtain ⟨-, -, rfl⟩ := occOfChunk_eq_some.mp hc'
        rfl
      have ho0e : o0.entry = e := by rw [← hxo0, hxentry]
      rw [ho0e] at hfind
      rw [hfind] at hfe'
      have hc1cm : c1 = cm := Option.some_inj.mp hfe'
      simp only [hfe, Option.map_some']
      rw [ho0e, hc1cm]
    | none =>
      have hempty : ((entryOccs e).filter (fun o => decide (o.ch = ch))).filter
          (fun o => decide (o.full = f)) = [] := by
        apply List.eq_nil_iff_forall_not_mem.mpr
        intro y hy
        have hyf := (List.mem_filter.mp hy).2
        have hy1 := List.mem_filter.mp (List.mem_filter.mp hy).1
        have hych := hy1.2
        rw [decide_eq_true_eq] at hych hyf
        rw [entryOccs] at hy1
        obtain ⟨c', hc'm, hc'⟩ := List.mem_filterMap.mp hy1.1
        obtain ⟨hl1, hl2, rfl⟩ := occOfChunk_eq_some.mp hc'
        have := List.find?_eq_none.mp hfe c' hc'm
        apply this
        rw [Bool.and_eq_true, decide_eq_true_eq, decide_eq_true_eq]
        exact ⟨hych, hyf⟩
      rw [hempty, List.nil_append] at hcons
      simp only [hfe, Option.map_none']
      show firstOcc restd ch f = some (o0.entry, c1)
      exact ih o0 rest c1 hcons hfind

/-- Everything one printed tone line contains, traced back to the
corpus: its sample is a raw pinyin of an actual occurrence whose full
normalization is the line's key, its count is the number of chunk
occurrences with that normalization, and its example english comes from
an occurrence of the group. -/
theorem renderToneLine_props {data : List Entry} {k fp : String} {o' : Occ}
    (ho' : o' ∈ (occs data).filter (fun o => decide (o.ch = k)))
    (hf' : o'.full = fp) :
    normalize_pinyin_full
        (renderToneLine k ((occs data).filter (fun o => decide (o.ch = k))) fp).sample
        = fp ∧
      (renderToneLine k ((occs data).filter (fun o => decide (o.ch = k))) fp).sample
        ∈ rawVariants data k ∧
      0 < (renderToneLine k ((occs data).filter (fun o => decide (o.ch = k))) fp).count ∧
      (renderToneLine k ((occs data).filter (fun o => decide (o.ch = k))) fp).count
        = (claimFulls data k).count fp ∧
      (∃ e c, firstOcc data k fp = some (e, c) ∧
        (renderToneLine k ((occs data).filter
          (fun o => decide (o.ch = k))) fp).sample = c.pinyin.getD "" ∧
        (renderToneLine k ((occs data).filter
          (fun o => decide (o.ch = k))) fp).exampleEnglish = e.english) ∧
      ∃ o ∈ occs data, o.ch = k ∧ o.full = fp ∧
        (renderToneLine k ((occs data).filter
          (fun o => decide (o.ch = k))) fp).exampleEnglish = o.entry.english := by
  have hmemf : o' ∈ ((occs data).filter (fun o => decide (o.ch = k))).filter
      (fun o => decide (o.full = fp)) :=
    List.mem_filter.mpr ⟨ho', decide_eq_true hf'⟩
  cases hfl : ((occs data).filter (fun o => decide (o.ch = k))).filter
      (fun o => decide (o.full = fp)) with
  | nil =>
    rw [hfl] at hmemf
    cases hmemf
  | cons o0 rest =>
    have ho0f : o0 ∈ ((occs data).filter (fun o => decide (o.ch = k))).filter
        (fun o => decide (o.full = fp)) := by
      rw [hfl]
      exact List.mem_cons_self _ _
    have ho0full : o0.full = fp := by
      have := (List.mem_filter.mp ho0f).2
      rwa [decide_eq_true_eq] at this
    have ho0grp := (List.mem_filter.mp ho0f).1
    have ho0ch : o0.ch = k := by
      have := (List.mem_filter.mp ho0grp).2
      rwa [decide_eq_true_eq] at this
    have ho0occs : o0 ∈ occs data := (List.mem_filter.mp ho0grp).1
    obtain ⟨hletter, hfullne, hentrymem, c0, hc0m, hc0ch, hc0f⟩ := occ_props ho0occs
    have hfpne : fp ≠ "" := ho0full ▸ hfullne
    have hkletter : hasLetterStr k = true := ho0ch ▸ hletter
    have hex : ∃ c ∈ o0.entry.chunks.getD [],
        (decide (c.chinese = some k)
          && decide (normalize_pinyin_full (c.pinyin.getD "") = fp)) = true := by
      refine ⟨c0, hc0m, ?_⟩
      rw [hc0ch, ho0ch, hc0f, ho0full]
      simp
    obtain ⟨c1, hc1⟩ := Option.isSome_iff_exists.mp (List.find?_isSome.mpr hex)
    have hc1p := List.find?_some hc1
    rw [Bool.and_eq_true, decide_eq_true_eq, decide_eq_true_eq] at hc1p
    have hc1m := List.mem_of_find?_eq_some hc1
    have hEFS : entryFirstSample o0.entry k fp = some (c1.pinyin.getD "") := by
      rw [entryFirstSample, hc1]
      rfl
    have hrf : normalize_pinyin_full (c1.pinyin.getD "") = fp := hc1p.2
    have hrne : c1.pinyin.getD "" ≠ "" := by
      intro h0
      rw [h0] at hrf
      exact hfpne (by rw [← hrf]; rfl)
    have hentries : (((occs data).filter (fun o => decide (o.ch = k))).filter
        (fun o => decide (o.full = fp))).map Occ.entry
        = o0.entry :: rest.map Occ.entry := by
      rw [hfl, List.map_cons]
    have hsample : (renderToneLine k ((occs data).filter
        (fun o => decide (o.ch = k))) fp).sample = c1.pinyin.getD "" := by
      simp only [renderToneLine]
      rw [hentries]
      exact findSample_head hEFS hrne
    have hcount : (renderToneLine k ((occs data).filter
        (fun o => decide (o.ch = k))) fp).count = rest.length + 1 := by
      simp only [renderToneLine]
      rw [hentries]
      simp
    have hexam : (renderToneLine k ((occs data).filter
        (fun o => decide (o.ch = k))) fp).exampleEnglish = o0.entry.english := by
      simp only [renderToneLine]
      rw [hentries]
      rfl
    refine ⟨?_, ?_, ?_, ?_, ?_, ?_⟩
    · rw [hsample]
      exact hrf
    · rw [hsample]
      refine mem_rawVariants_iff.mpr ⟨o0.entry, hentrymem, c1, hc1m, ?_, rfl⟩
      rw [hc1p.1]
      rfl
    · rw [hcount]
      omega
    · rw [hcount]
      have hlen1 : rest.length + 1 = (((occs data).filter
          (fun o => decide (o.ch = k))).filter (fun o => decide (o.full = fp))).length := by
        rw [hfl]
        rfl
      rw [hlen1, List.filter_filter]
      exact occs_filter_length_eq_count hkletter hfpne
    · exact ⟨o0.entry, c1, firstOcc_eq hkletter hfpne data o0 rest c1 hfl hc1,
        hsample, hexam⟩
    · exact ⟨o0, ho0occs, ho0ch, ho0full, hexam⟩

/-- **C3, counterexample**: in `[entT1, entT2, entT3]` the flagged group
for `你` has raw variants `Nǐ`, `nǐ`, `ní` in the corpus, yet the report
prints only two lines, keyed by distinct *normalizations*: the variant
`nǐ` is never listed, and the line whose sample is `Nǐ` carries count 2
although the raw variant `Nǐ` occurs once.  So the report does not list
each distinct raw variant with that variant's own count. -/
theorem claim_C3_counterexample :
    (sanitize [entT1, entT2, entT3]).toneGroups =
      [⟨"你", [⟨"ní", 1, some "s3"⟩, ⟨"Nǐ", 2, some "s1"⟩]⟩] ∧
    "nǐ" ∈ rawVariants [entT1, entT2, entT3] "你" ∧
    (∀ ln ∈ (⟨"你", [⟨"ní", 1, some "s3"⟩, ⟨"Nǐ", 2, some "s1"⟩]⟩ : ToneGroup).lines,
      ln.sample ≠ "nǐ") ∧
    (rawVariants [entT1, entT2, entT3] "你").count "Nǐ" = 1 := by
  refine ⟨by decide, by decide, by decide, by decide⟩

/-- **C3, amended**: for every reported tone-inconsistency group there
is a stripped key `s` such that the normalizations of the printed lines
are exactly the distinct non-empty full-letters pinyin normalizations
of the group's chunk occurrences stripping to `s` (each such
normalization gets exactly one line, in sorted order of the
normalization), and each line shows: the raw pinyin of the *first*
chunk occurrence in corpus order with that normalization, the count of
chunk occurrences of that normalization (not of the raw variant), and
the english of the *first* sentence containing that normalization. -/
theorem claim_C3_amended (data : List Entry) (g : ToneGroup)
    (hg : g ∈ (sanitize data).toneGroups) :
    (∃ s, ∀ f, (∃ ln ∈ g.lines, normalize_pinyin_full ln.sample = f) ↔
      (f ∈ claimFulls data g.chinese ∧ f ≠ "" ∧
        normalize_pinyin_stripped f = s)) ∧
    (∀ ln ∈ g.lines, ∃ f, f ≠ "" ∧ normalize_pinyin_full ln.sample = f ∧
      ln.sample ∈ rawVariants data g.chinese ∧
      0 < ln.count ∧ ln.count = (claimFulls data g.chinese).count f ∧
      (∃ e c, firstOcc data g.chinese f = some (e, c) ∧
        ln.sample = c.pinyin.getD "" ∧ ln.exampleEnglish = e.english) ∧
      ∃ o ∈ occs data, o.ch = g.chinese ∧ o.full = f ∧
        ln.exampleEnglish = o.entry.english) ∧
    (g.lines.map (fun ln => normalize_pinyin_full ln.sample)).Pairwise
      (fun a b => strLeB a b = true) ∧
    (g.lines.map (fun ln => normalize_pinyin_full ln.sample)).Nodup := by
  obtain ⟨k, hk, hpk⟩ := mem_toneSection.mp hg
  obtain ⟨s, hlen, hgeq⟩ := mem_processKey.mp hpk
  subst hgeq
  have hofp : ∀ fp ∈ sortStrings ((firstKeys (((occs data).filter
      (fun o => decide (o.ch = k))).map Occ.full)).filter
      (fun f => decide (normalize_pinyin_stripped f = s))),
      ∃ o' ∈ (occs data).filter (fun o => decide (o.ch = k)), o'.full = fp := by
    intro fp hfp
    have h1 := mem_sortStrings.mp hfp
    have h2 := (List.mem_filter.mp h1).1
    rw [mem_firstKeys] at h2
    obtain ⟨o', ho', rfl⟩ := List.mem_map.mp h2
    exact ⟨o', ho', rfl⟩
  have hkletter : hasLetterStr k = true := by
    obtain ⟨f0, hf0⟩ : ∃ f0, f0 ∈ (firstKeys (((occs data).filter
        (fun o => decide (o.ch = k))).map Occ.full)).filter
        (fun f => decide (normalize_pinyin_stripped f = s)) := by
      cases hl0 : (firstKeys (((occs data).filter
          (fun o => decide (o.ch = k))).map Occ.full)).filter
          (fun f => decide (normalize_pinyin_stripped f = s)) with
      | nil =>
        rw [hl0] at hlen
        simp at hlen
      | cons x xs => exact ⟨x, hl0 ▸ List.mem_cons_self x xs⟩
    have hf0fl := (List.mem_filter.mp hf0).1
    rw [mem_firstKeys] at hf0fl
    obtain ⟨o0, ho0, -⟩ := List.mem_map.mp hf0fl
    have hch0 := (List.mem_filter.mp ho0).2
    rw [decide_eq_true_eq] at hch0
    rw [← hch0]
    exact (occ_props (List.mem_filter.mp ho0).1).1
  have hmapeq : (((sortStrings ((firstKeys (((occs data).filter
      (fun o => decide (o.ch = k))).map Occ.full)).filter
      (fun f => decide (normalize_pinyin_stripped f = s)))).map
        (renderToneLine k ((occs data).filter (fun o => decide (o.ch = k))))).map
      (fun ln => normalize_pinyin_full ln.sample))
      = sortStrings ((firstKeys (((occs data).filter
        (fun o => decide (o.ch = k))).map Occ.full)).filter
        (fun f => decide (normalize_pinyin_stripped f = s))) := by
    rw [List.map_map]
    have hcongr : ∀ fp ∈ sortStrings ((firstKeys (((occs data).filter
        (fun o => decide (o.ch = k))).map Occ.full)).filter
        (fun f => decide (normalize_pinyin_stripped f = s))),
        ((fun ln => normalize_pinyin_full ln.sample) ∘
          renderToneLine k ((occs data).filter (fun o => decide (o.ch = k)))) fp
          = id fp := by
      intro fp hfp
      obtain ⟨o', ho'grp, ho'full⟩ := hofp fp hfp
      exact (renderToneLine_props ho'grp ho'full).1
    rw [List.map_congr_left hcongr, List.map_id]
  refine ⟨⟨s, ?_⟩, ?_, ?_, ?_⟩
  · intro f
    constructor
    · rintro ⟨ln, hln, hfeq⟩
      have hfm : f ∈ sortStrings ((firstKeys (((occs data).filter
          (fun o => decide (o.ch = k))).map Occ.full)).filter
          (fun f => decide (normalize_pinyin_stripped f = s))) := by
        rw [← hmapeq]
        exact List.mem_map.mpr ⟨ln, hln, hfeq⟩
      have h1 := mem_sortStrings.mp hfm
      have hstrf := (List.mem_filter.mp h1).2
      rw [decide_eq_true_eq] at hstrf
      have h3 := (List.mem_filter.mp h1).1
      rw [mem_firstKeys] at h3
      obtain ⟨o, ho, hofull⟩ := List.mem_map.mp h3
      have hochk := (List.mem_filter.mp ho).2
      rw [decide_eq_true_eq] at hochk
      have hoocc := (List.mem_filter.mp ho).1
      have hfne : f ≠ "" := hofull ▸ (occ_props hoocc).2.1
      exact ⟨(claimFulls_occs hkletter hfne).mpr ⟨o, hoocc, hochk, hofull⟩,
        hfne, hstrf⟩
    · rintro ⟨hcf, hfne, hstrf⟩
      obtain ⟨o, ho, hoch, hofull⟩ := (claimFulls_occs hkletter hfne).mp hcf
      have hgrpmem : o ∈ (occs data).filter (fun o => decide (o.ch = k)) :=
        List.mem_filter.mpr ⟨ho, decide_eq_true hoch⟩
      have hful : f ∈ firstKeys (((occs data).filter
          (fun o => decide (o.ch = k))).map Occ.full) :=
        (mem_firstKeys _).mpr (List.mem_map.mpr ⟨o, hgrpmem, hofull⟩)
      have hsort : f ∈ sortStrings ((firstKeys (((occs data).filter
          (fun o => decide (o.ch = k))).map Occ.full)).filter
          (fun f => decide (normalize_pinyin_stripped f = s))) :=
        mem_sortStrings.mpr (List.mem_filter.mpr ⟨hful, decide_eq_true hstrf⟩)
      rw [← hmapeq] at hsort
      obtain ⟨ln, hln, hlneq⟩ := List.mem_map.mp hsort
      exact ⟨ln, hln, hlneq⟩
  · intro ln hln
    obtain ⟨fp, hfp, rfl⟩ := List.mem_map.mp hln
    obtain ⟨o', ho'grp, ho'full⟩ := hofp fp hfp
    have hfne : fp ≠ "" := by
      rw [← ho'full]
      exact (occ_props (List.mem_filter.mp ho'grp).1).2.1
    obtain ⟨p1, p2, p3, p4, p6, p5⟩ := renderToneLine_props ho'grp ho'full
    exact ⟨fp, hfne, p1, p2, p3, p4, p6, p5⟩
  · rw [hmapeq]
    exact sorted_sortStrings _
  · rw [hmapeq]
    exact nodup_sortStrings ((nodup_firstKeys _).filter _)

/-- Witness for the amended C3 at the `你` corpus: the reported group's
line keys are in sorted normalization order and duplicate-free. -/
theorem claim_C3_amended_witness :
    (⟨"你", [⟨"ní", 1, some "s3"⟩, ⟨"Nǐ", 2, some "s1"⟩]⟩ : ToneGroup) ∈
      (sanitize [entT1, entT2, entT3]).toneGroups ∧
    ((⟨"你", [⟨"ní", 1, some "s3"⟩, ⟨"Nǐ", 2, some "s1"⟩]⟩ : ToneGroup).lines.map
      (fun ln => normalize_pinyin_full ln.sample)).Pairwise
        (fun a b => strLeB a b = true) ∧
    ((⟨"你", [⟨"ní", 1, some "s3"⟩, ⟨"Nǐ", 2, some "s1"⟩]⟩ : ToneGroup).lines.map
      (fun ln => normalize_pinyin_full ln.sample)).Nodup :=
  ⟨by decide, (claim_C3_amended [entT1, entT2, entT3] _ (by decide)).2.2.1,
    (claim_C3_amended [entT1, entT2, entT3] _ (by decide)).2.2.2⟩

/-- **C5**: a chunk whose Chinese text has no letter-category character
never appears in the tone-inconsistency report (every reported group's
Chinese text has a letter), while such a chunk's Chinese text still
contributes, in position, to the concatenated-text duplicate key of its
record. -/
theorem claim_C5 (data d1 d2 : List Entry) (eng : Option String) (l1 l2 : List Chunk)
    (c : Chunk) (hc : hasLetterStr (c.chinese.getD "") = false) :
    (∀ g ∈ (sanitize data).toneGroups,
      hasLetterStr g.chinese = true ∧ g.chinese ≠ c.chinese.getD "") ∧
    ∃ es, (fullChinese l1 ++ (c.chinese.getD "" ++ fullChinese l2), es) ∈
        chineseGroups (d1 ++ ⟨eng, some (l1 ++ c :: l2)⟩ :: d2) ∧
      (⟨eng, some (l1 ++ c :: l2)⟩ : Entry) ∈ es := by
  constructor
  · intro g hg
    obtain ⟨k, hk, hpk⟩ := mem_toneSection.mp hg
    rw [processKey_chinese hpk]
    rw [mem_firstKeys] at hk
    obtain ⟨o, ho, rfl⟩ := List.mem_map.mp hk
    refine ⟨(occ_props ho).1, ?_⟩
    intro heq
    have hlet := (occ_props ho).1
    rw [heq, hc] at hlet
    cases hlet
  · have he : (⟨eng, some (l1 ++ c :: l2)⟩ : Entry)
        ∈ d1 ++ ⟨eng, some (l1 ++ c :: l2)⟩ :: d2 :=
      List.mem_append_right _ (List.mem_cons_self _ _)
    obtain ⟨es, hes, hmem⟩ := mem_chineseGroups_of_mem he rfl
    refine ⟨es, ?_, hmem⟩
    have hconc : fullChinese (l1 ++ c :: l2)
        = fullChinese l1 ++ (c.chinese.getD "" ++ fullChinese l2) := by
      rw [fullChinese_append]
      rfl
    rw [← hconc]
    exact hes

/-- Witness for C5: the letterless chunk `。` (with a nonsense pinyin)
satisfies the hypothesis, and the theorem yields that the reported
group `你` of a concrete corpus has letters. -/
theorem claim_C5_witness :
    (⟨"你", [⟨"ní", 1, some "s3"⟩, ⟨"Nǐ", 2, some "s1"⟩]⟩ : ToneGroup) ∈
      (sanitize [entT1, entT2, entT3]).toneGroups ∧
    (hasLetterStr "你" = true ∧
      ("你" : String) ≠ (⟨some "。", some "x"⟩ : Chunk).chinese.getD "") ∧
    hasLetterStr ((⟨some "。", some "x"⟩ : Chunk).chinese.getD "") = false :=
  ⟨by decide,
    (claim_C5 [entT1, entT2, entT3] [] [] none [] []
        ⟨some "。", some "x"⟩ (by decide)).1
      ⟨"你", [⟨"ní", 1, some "s3"⟩, ⟨"Nǐ", 2, some "s1"⟩]⟩ (by decide),
    by decide⟩

/-- **C8**: the checker is deterministic — the analysis is a pure
function of the parsed input, so two runs on the same data are
identical — and the tone-inconsistency groups are visited in a stable
sorted order of their Chinese text (code-point order, as Python's
`sorted`), making the output reproducible. -/
theorem claim_C8 (data : List Entry) :
    sanitize data = sanitize data ∧
      ((sanitize data).toneGroups.map ToneGroup.chinese).Pairwise
        (fun a b => strLeB a b = true) := by
  refine ⟨rfl, ?_⟩
  show ((toneSection data).map ToneGroup.chinese).Pairwise _
  rw [toneSection]
  exact pairwise_map_flatMap ToneGroup.chinese (processKey (occs data)) _
    (sorted_sortStrings _) (fun k g hg => processKey_chinese hg)

/-! ## Invariance of the tone report under no-occurrence chunks (C9) -/

theorem occR_refl (o : Occ) : OccR o o := ⟨rfl, rfl, rfl, fun _ _ _ => rfl⟩

theorem forall2_occR_refl (l : List Occ) : List.Forall₂ OccR l l :=
  List.forall₂_same.mpr (fun o _ => occR_refl o)

theorem forall2_map_ch {A B : List Occ} (h : List.Forall₂ OccR A B) :
    A.map Occ.ch = B.map Occ.ch := by
  induction h with
  | nil => rfl
  | cons hab htail ih => simp only [List.map_cons, hab.1, ih]

theorem forall2_map_full {A B : List Occ} (h : List.Forall₂ OccR A B) :
    A.map Occ.full = B.map Occ.full := by
  induction h with
  | nil => rfl
  | cons hab htail ih => simp only [List.map_cons, hab.2.1, ih]

theorem forall2_filter_occ {A B : List Occ} (p : Occ → Bool)
    (hp : ∀ a b, OccR a b → p a = p b) (h : List.Forall₂ OccR A B) :
    List.Forall₂ OccR (A.filter p) (B.filter p) := by
  induction h with
  | nil => exact List.Forall₂.nil
  | @cons a b l1 l2 hab htail ih =>
    rw [List.filter_cons, List.filter_cons, hp a b hab]
    by_cases hpb : p b = true
    · rw [if_pos hpb, if_pos hpb]
      exact List.Forall₂.cons hab ih
    · rw [if_neg hpb, if_neg hpb]
      exact ih

theorem forall2_map_rel {α β : Type} {R : α → α → Prop} {S : β → β → Prop}
    {f : α → β} {l1 l2 : List α} (h : List.Forall₂ R l1 l2)
    (hfs : ∀ a b, R a b → S (f a) (f b)) : List.Forall₂ S (l1.map f) (l2.map f) := by
  induction h with
  | nil => exact List.Forall₂.nil
  | cons hab htail ih => exact List.Forall₂.cons (hfs _ _ hab) ih

theorem findSampleGo_congr {ch f : String} (hf : f ≠ "") {E1 E2 : List Entry}
    (h : List.Forall₂ EntryR E1 E2) :
    ∀ acc, findSampleGo ch f acc E1 = findSampleGo ch f acc E2 := by
  induction h with
  | nil => intro _; rfl
  | @cons a b l1 l2 hab htail ih =>
    intro acc
    rw [findSampleGo, findSampleGo, hab.2 ch f hf]
    by_cases hacc : ((entryFirstSample b ch f).getD acc) ≠ ""
    · rw [if_pos hacc, if_pos hacc]
    · rw [if_neg hacc, if_neg hacc]
      exact ih _

theorem forall2_head_english {E1 E2 : List Entry} (h : List.Forall₂ EntryR E1 E2) :
    E1.head?.bind Entry.english = E2.head?.bind Entry.english := by
  cases h with
  | nil => rfl
  | cons hab htail =>
    rw [List.head?_cons, List.head?_cons]
    exact hab.1

theorem renderToneLine_congr {k fp : String} {G1 G2 : List Occ}
    (h : List.Forall₂ OccR G1 G2) (hfp : fp ≠ "") :
    renderToneLine k G1 fp = renderToneLine k G2 fp := by
  have hfilter : List.Forall₂ OccR (G1.filter (fun o => decide (o.full = fp)))
      (G2.filter (fun o => decide (o.full = fp))) :=
    forall2_filter_occ _ (fun a b hab => by rw [hab.2.1]) h
  have hentries : List.Forall₂ EntryR
      ((G1.filter (fun o => decide (o.full = fp))).map Occ.entry)
      ((G2.filter (fun o => decide (o.full = fp))).map Occ.entry) :=
    forall2_map_rel hfilter (fun a b hab => hab.2.2)
  simp only [renderToneLine]
  congr 1
  · exact findSampleGo_congr hfp hentries ""
  · exact hentries.length_eq
  · exact forall2_head_english hentries

theorem flatMap_congr_left {α β : Type} {l : List α} {f g : α → List β}
    (h : ∀ a ∈ l, f a = g a) : l.flatMap f = l.flatMap g := by
  induction l with
  | nil => rfl
  | cons a as ih =>
    rw [List.flatMap_cons, List.flatMap_cons, h a (List.mem_cons_self _ _),
      ih (fun x hx => h x (List.mem_cons_of_mem _ hx))]

theorem processKey_congr {A B : List Occ} (k : String)
    (h : List.Forall₂ OccR A B) (hne : ∀ o ∈ A, o.full ≠ "") :
    processKey A k = processKey B k := by
  have hgrp : List.Forall₂ OccR (A.filter (fun o => decide (o.ch = k)))
      (B.filter (fun o => decide (o.ch = k))) :=
    forall2_filter_occ _ (fun a b hab => by rw [hab.1]) h
  have hmf : (B.filter (fun o => decide (o.ch = k))).map Occ.full
      = (A.filter (fun o => decide (o.ch = k))).map Occ.full :=
    (forall2_map_full hgrp).symm
  simp only [processKey]
  rw [hmf]
  by_cases hgate : (firstKeys ((A.filter (fun o => decide (o.ch = k))).map
      Occ.full)).length ≤ 1
  · rw [if_pos hgate, if_pos hgate]
  · rw [if_neg hgate, if_neg hgate]
    apply flatMap_congr_left
    intro s _
    by_cases hfps : 1 < ((firstKeys ((A.filter (fun o => decide (o.ch = k))).map
        Occ.full)).filter (fun f => decide (normalize_pinyin_stripped f = s))).length
    · rw [if_pos hfps, if_pos hfps]
      have hmap : (sortStrings ((firstKeys ((A.filter (fun o => decide (o.ch = k))).map
          Occ.full)).filter (fun f => decide (normalize_pinyin_stripped f = s)))).map
            (renderToneLine k (A.filter (fun o => decide (o.ch = k))))
          = (sortStrings ((firstKeys ((A.filter (fun o => decide (o.ch = k))).map
          Occ.full)).filter (fun f => decide (normalize_pinyin_stripped f = s)))).map
            (renderToneLine k (B.filter (fun o => decide (o.ch = k)))) := by
        apply List.map_congr_left
        intro fp hfp
        have h1 := mem_sortStrings.mp hfp
        have h2 := (List.mem_filter.mp h1).1
        rw [mem_firstKeys] at h2
        obtain ⟨o', ho', hfull'⟩ := List.mem_map.mp h2
        have ho'A : o' ∈ A := List.mem_of_mem_filter ho'
        exact renderToneLine_congr hgrp (hfull' ▸ hne o' ho'A)
      rw [hmap]
    · rw [if_neg hfps, if_neg hfps]

theorem find?_middle_skip {α : Type} (p : α → Bool) (l1 l2 : List α) (c : α)
    (hpc : p c = false) : List.find? p (l1 ++ c :: l2) = List.find? p (l1 ++ l2) := by
  induction l1 with
  | nil =>
    rw [List.nil_append, List.nil_append]
    exact List.find?_cons_of_neg _ (by simp [hpc])
  | cons a as ih =>
    rw [List.cons_append, List.cons_append]
    by_cases hpa : p a = true
    · rw [List.find?_cons_of_pos _ hpa, List.find?_cons_of_pos _ hpa]
    · rw [List.find?_cons_of_neg _ (by simp [hpa]), List.find?_cons_of_neg _ (by simp [hpa])]
      exact ih

theorem entryR_insert {eng : Option String} {l1 l2 : List Chunk} {c : Chunk}
    (hfull : normalize_pinyin_full (c.pinyin.getD "") = "") :
    EntryR ⟨eng, some (l1 ++ c :: l2)⟩ ⟨eng, some (l1 ++ l2)⟩ := by
  refine ⟨rfl, ?_⟩
  intro ch f hf
  have hpc : (decide (c.chinese = some ch)
      && decide (normalize_pinyin_full (c.pinyin.getD "") = f)) = false := by
    have h2 : decide (normalize_pinyin_full (c.pinyin.getD "") = f) = false := by
      apply decide_eq_false
      rw [hfull]
      exact fun h0 => hf h0.symm
    rw [h2, Bool.and_false]
  rw [entryFirstSample, entryFirstSample]
  simp only [Option.getD_some]
  rw [find?_middle_skip _ l1 l2 c hpc]

theorem forall2_filterMap_occ {e' e : Entry} (hR : EntryR e' e) (m : List Chunk) :
    List.Forall₂ OccR (m.filterMap (occOfChunk e')) (m.filterMap (occOfChunk e)) := by
  induction m with
  | nil => exact List.Forall₂.nil
  | cons ck m' ih =>
    rw [List.filterMap_cons, List.filterMap_cons]
    by_cases hcond : (hasLetterStr (ck.chinese.getD "")
        && decide (normalize_pinyin_full (ck.pinyin.getD "") ≠ "")) = true
    · have h1 : occOfChunk e' ck = some ⟨ck.chinese.getD "",
          normalize_pinyin_full (ck.pinyin.getD ""), e'⟩ := by
        simp only [occOfChunk]
        rw [if_pos hcond]
      have h2 : occOfChunk e ck = some ⟨ck.chinese.getD "",
          normalize_pinyin_full (ck.pinyin.getD ""), e⟩ := by
        simp only [occOfChunk]
        rw [if_pos hcond]
      rw [h1, h2]
      exact List.Forall₂.cons ⟨rfl, rfl, hR⟩ ih
    · have h1 : occOfChunk e' ck = none := by
        simp only [occOfChunk]
        rw [if_neg hcond]
      have h2 : occOfChunk e ck = none := by
        simp only [occOfChunk]
        rw [if_neg hcond]
      rw [h1, h2]
      exact ih

/-- **C9**: a chunk whose pinyin contains no letter-category character
(its full-letters normalization is empty) is excluded from the
tone-inconsistency analysis even when its Chinese text has letters:
removing such a chunk from its record leaves the whole
tone-inconsistency report unchanged, so the chunk can neither cause nor
join a reported group. -/
theorem claim_C9 (d1 d2 : List Entry) (eng : Option String) (l1 l2 : List Chunk)
    (c : Chunk) (hfull : normalize_pinyin_full (c.pinyin.getD "") = "") :
    (sanitize (d1 ++ ⟨eng, some (l1 ++ c :: l2)⟩ :: d2)).toneGroups
      = (sanitize (d1 ++ ⟨eng, some (l1 ++ l2)⟩ :: d2)).toneGroups := by
  have hR : EntryR ⟨eng, some (l1 ++ c :: l2)⟩ ⟨eng, some (l1 ++ l2)⟩ :=
    entryR_insert hfull
  have hocc_none : occOfChunk ⟨eng, some (l1 ++ c :: l2)⟩ c = none := by
    simp only [occOfChunk]
    rw [if_neg]
    simp [hfull]
  have hmid : List.Forall₂ OccR (entryOccs ⟨eng, some (l1 ++ c :: l2)⟩)
      (entryOccs ⟨eng, some (l1 ++ l2)⟩) := by
    simp only [entryOccs, Option.getD_some]
    have hskip : (l1 ++ c :: l2).filterMap (occOfChunk ⟨eng, some (l1 ++ c :: l2)⟩)
        = (l1 ++ l2).filterMap (occOfChunk ⟨eng, some (l1 ++ c :: l2)⟩) := by
      rw [List.filterMap_append, List.filterMap_append, List.filterMap_cons]
      simp only [hocc_none]
    rw [hskip]
    exact forall2_filterMap_occ hR (l1 ++ l2)
  have hall : List.Forall₂ OccR (occs (d1 ++ ⟨eng, some (l1 ++ c :: l2)⟩ :: d2))
      (occs (d1 ++ ⟨eng, some (l1 ++ l2)⟩ :: d2)) := by
    rw [occs, occs, List.flatMap_append, List.flatMap_append, List.flatMap_cons,
      List.flatMap_cons]
    exact List.rel_append (forall2_occR_refl (d1.flatMap entryOccs))
      (List.rel_append hmid (forall2_occR_refl (d2.flatMap entryOccs)))
  have hne : ∀ o ∈ occs (d1 ++ ⟨eng, some (l1 ++ c :: l2)⟩ :: d2), o.full ≠ "" :=
    fun o ho => (occ_props ho).2.1
  show toneSection _ = toneSection _
  rw [toneSection, toneSection, forall2_map_ch hall]
  apply flatMap_congr_left
  intro k _
  exact processKey_congr k hall hne

/-- Witness for C9: adding a `他`-chunk whose pinyin `123` has no
letters to the first sentence leaves the tone report unchanged. -/
theorem claim_C9_witness :
    normalize_pinyin_full ((chunkNoPinyinLetters : Chunk).pinyin.getD "") = "" ∧
    (sanitize [⟨some "s1", some [⟨some "你", some "nǐ"⟩, chunkNoPinyinLetters]⟩,
        entT3]).toneGroups
      = (sanitize [⟨some "s1", some [⟨some "你", some "nǐ"⟩]⟩, entT3]).toneGroups :=
  ⟨by decide,
    claim_C9 [] [entT3] (some "s1") [⟨some "你", some "nǐ"⟩] []
      chunkNoPinyinLetters (by decide)⟩
